import Mathlib

set_option maxRecDepth 8000

/-!
A shallow embedding of the tarot-card scraper `tmh_tarot_scraper.py` and
proofs about its specification.  Pure helper functions of the script are
translated to Lean functions on `String` / `List Char`; the DOM-dependent
parts of the page parser are modelled by passing the relevant per-element
data (element text, child texts, following text nodes, paragraph texts,
image-url candidates) explicitly.  Python's regular-expression operations
are modelled character-by-character over the ASCII range (the `\s` class is
modelled as the six ASCII whitespace characters).
-/

/-! ### Characters and elementary string operations -/

/-- Python's `\s` class / `str.strip()` whitespace, ASCII range. -/
def isWsp (c : Char) : Bool :=
  c == ' ' || c == '\t' || c == '\n' || c == '\r' || c == '\x0b' || c == '\x0c'

/-- The class `[ \t]` of horizontal blanks. -/
def isBlank (c : Char) : Bool := c == ' ' || c == '\t'

def wspHead : List Char → Bool
  | [] => false
  | c :: _ => isWsp c

def blankHead : List Char → Bool
  | [] => false
  | c :: _ => isBlank c

def nlHead : List Char → Bool
  | [] => false
  | c :: _ => c == '\n'

/-- Python `str.lower()` on one ASCII character. -/
def pyLower : Char → Char
  | 'A' => 'a' | 'B' => 'b' | 'C' => 'c' | 'D' => 'd' | 'E' => 'e' | 'F' => 'f'
  | 'G' => 'g' | 'H' => 'h' | 'I' => 'i' | 'J' => 'j' | 'K' => 'k' | 'L' => 'l'
  | 'M' => 'm' | 'N' => 'n' | 'O' => 'o' | 'P' => 'p' | 'Q' => 'q' | 'R' => 'r'
  | 'S' => 's' | 'T' => 't' | 'U' => 'u' | 'V' => 'v' | 'W' => 'w' | 'X' => 'x'
  | 'Y' => 'y' | 'Z' => 'z'
  | c => c

/-- Python `str.upper()` on one ASCII character. -/
def pyUpper : Char → Char
  | 'a' => 'A' | 'b' => 'B' | 'c' => 'C' | 'd' => 'D' | 'e' => 'E' | 'f' => 'F'
  | 'g' => 'G' | 'h' => 'H' | 'i' => 'I' | 'j' => 'J' | 'k' => 'K' | 'l' => 'L'
  | 'm' => 'M' | 'n' => 'N' | 'o' => 'O' | 'p' => 'P' | 'q' => 'Q' | 'r' => 'R'
  | 's' => 'S' | 't' => 'T' | 'u' => 'U' | 'v' => 'V' | 'w' => 'W' | 'x' => 'X'
  | 'y' => 'Y' | 'z' => 'Z'
  | c => c

def pyLowerStr (s : String) : String := String.mk (s.data.map pyLower)

/-- Does the second list start with the first one? -/
def startsWithList : List Char → List Char → Bool
  | [], _ => true
  | _ :: _, [] => false
  | a :: as, b :: bs => a == b && startsWithList as bs

def hasSubstr : List Char → List Char → Bool
  | n, [] => n.isEmpty
  | n, c :: t => startsWithList n (c :: t) || hasSubstr n t

/-- Python's `needle in hay` substring test. -/
def containsStr (hay needle : String) : Bool := hasSubstr needle.data hay.data

/-! ### `text_clean` (the Text Normalizer)

`def text_clean(s): return re.sub(r"\s+\n", "\n", re.sub(r"[ \t]+", " ", s)).strip()`

`re.sub(r"[ \t]+", " ", s)` replaces every maximal run of blanks by one
space; character-wise, a blank is dropped when another blank follows it
and otherwise emitted as `' '`.

`re.sub(r"\s+\n", "\n", x)`: by leftmost-longest matching with the greedy
`\s+` backtracking into the final `\n`, a character is removed exactly when
it is a whitespace character that is followed (through whitespace only) by
some later `'\n'`; that `'\n'` survives as the replacement text. -/

def sub1 : List Char → List Char
  | [] => []
  | c :: cs =>
    if isBlank c then (if blankHead cs then sub1 cs else ' ' :: sub1 cs)
    else c :: sub1 cs

/-- Does the list start with whitespace leading (whitespace-only) to a `'\n'`? -/
def wsThenNewline : List Char → Bool
  | [] => false
  | c :: cs => if c == '\n' then true else if isWsp c then wsThenNewline cs else false

def sub2 : List Char → List Char
  | [] => []
  | c :: cs => if isWsp c && wsThenNewline cs then sub2 cs else c :: sub2 cs

/-- Python `str.strip()`. -/
def trimWs (l : List Char) : List Char :=
  ((l.dropWhile isWsp).reverse.dropWhile isWsp).reverse

def pyStrip (s : String) : String := String.mk (trimWs s.data)

def text_clean (s : String) : String := String.mk (trimWs (sub2 (sub1 s.data)))

/-! ### Fixpoint predicates for the two substitutions -/

/-- No tab and no blank immediately followed by a blank: exactly the lists
`sub1` leaves unchanged. -/
def q1 : List Char → Bool
  | [] => true
  | c :: cs => !(c == '\t') && !(isBlank c && blankHead cs) && q1 cs

/-- No whitespace character immediately followed by `'\n'`: exactly the lists
`sub2` leaves unchanged. -/
def q2 : List Char → Bool
  | [] => true
  | c :: cs => !(isWsp c && nlHead cs) && q2 cs

theorem blankHead_sub1 (l : List Char) (h : blankHead l = false) :
    blankHead (sub1 l) = false := by
  cases l with
  | nil => rfl
  | cons c cs =>
    simp only [blankHead] at h
    simp [sub1, h, blankHead]

theorem q1_sub1 (l : List Char) : q1 (sub1 l) = true := by
  induction l with
  | nil => rfl
  | cons c cs ih =>
    cases hc : isBlank c with
    | true =>
      cases hh : blankHead cs with
      | true => simpa [sub1, hc, hh] using ih
      | false =>
        have hb := blankHead_sub1 cs hh
        have hch : (' ' == '\t') = false := rfl
        simp [sub1, hc, hh, q1, hb, ih, hch]
    | false =>
      have ht : (c == '\t') = false := by
        cases h : c == '\t' with
        | true =>
          have : c = '\t' := by simpa using h
          subst this; simp [isBlank] at hc
        | false => rfl
      simp [sub1, hc, q1, ht, ih]

theorem q1_fix (l : List Char) (h : q1 l = true) : sub1 l = l := by
  induction l with
  | nil => rfl
  | cons c cs ih =>
    simp only [q1, Bool.and_eq_true, Bool.not_eq_true'] at h
    obtain ⟨⟨ht, hbb⟩, hq⟩ := h
    cases hc : isBlank c with
    | true =>
      have hsp : c = ' ' := by
        simp only [isBlank, Bool.or_eq_true] at hc
        rcases hc with h1 | h1
        · simpa using h1
        · exfalso; have : c = '\t' := by simpa using h1
          subst this; simp at ht
      have hh : blankHead cs = false := by
        cases h2 : blankHead cs with
        | true => rw [hc, h2] at hbb; simp at hbb
        | false => rfl
      simp [sub1, hc, hh, ih hq, hsp]
    | false => simp [sub1, hc, ih hq]

theorem nlHead_sub2 (l : List Char) (h : wsThenNewline l = false) :
    nlHead (sub2 l) = false := by
  induction l with
  | nil => rfl
  | cons c cs ih =>
    by_cases hnl : c = '\n'
    · subst hnl; simp [wsThenNewline] at h
    · by_cases hw : isWsp c = true
      · have h' : wsThenNewline cs = false := by
          simpa [wsThenNewline, hnl, hw] using h
        simp [sub2, hw, h', nlHead, hnl]
      · simp only [Bool.not_eq_true] at hw
        simp [sub2, hw, nlHead, hnl]

theorem q2_sub2 (l : List Char) : q2 (sub2 l) = true := by
  induction l with
  | nil => rfl
  | cons c cs ih =>
    cases hd : isWsp c && wsThenNewline cs with
    | true => simpa [sub2, hd] using ih
    | false =>
      simp only [sub2, hd, if_false]
      simp only [Bool.and_eq_false_iff] at hd
      have hn : (isWsp c && nlHead (sub2 cs)) = false := by
        rcases hd with h1 | h1
        · simp [h1]
        · simp [nlHead_sub2 cs h1]
      simp [q2, hn, ih]

theorem wsThenNewline_of_nlHead (l : List Char) (h : nlHead l = true) :
    wsThenNewline l = true := by
  cases l with
  | nil => simp [nlHead] at h
  | cons c cs => simp only [nlHead] at h; simp [wsThenNewline, h]

theorem q2_head_nl (l : List Char) (hq : q2 l = true) (hw : wsThenNewline l = true) :
    nlHead l = true := by
  induction l with
  | nil => simp [wsThenNewline] at hw
  | cons c cs ih =>
    simp only [q2, Bool.and_eq_true, Bool.not_eq_true'] at hq
    obtain ⟨hna, hq2⟩ := hq
    simp only [wsThenNewline] at hw
    cases hnl : c == '\n' with
    | true => simp [nlHead, hnl]
    | false =>
      rw [hnl] at hw
      cases hws : isWsp c with
      | true =>
        rw [hws] at hw; simp only [if_true, if_false] at hw
        have := ih hq2 hw
        rw [hws, this] at hna; simp at hna
      | false => rw [hws] at hw; simp at hw

theorem q2_fix (l : List Char) (h : q2 l = true) : sub2 l = l := by
  induction l with
  | nil => rfl
  | cons c cs ih =>
    simp only [q2, Bool.and_eq_true, Bool.not_eq_true'] at h
    obtain ⟨hna, hq2⟩ := h
    have hd : (isWsp c && wsThenNewline cs) = false := by
      cases hws : isWsp c with
      | false => simp [hws]
      | true =>
        cases hwt : wsThenNewline cs with
        | false => simp [hwt]
        | true =>
          have := q2_head_nl cs hq2 hwt
          rw [hws, this] at hna; simp at hna
    simp [sub2, hd, ih hq2]

theorem q1_append_right (a b : List Char) (h : q1 (a ++ b) = true) : q1 b = true := by
  induction a with
  | nil => simpa using h
  | cons c cs ih =>
    simp only [List.cons_append, q1, Bool.and_eq_true] at h
    exact ih h.2

theorem q1_append_left (a b : List Char) (h : q1 (a ++ b) = true) : q1 a = true := by
  induction a with
  | nil => rfl
  | cons c cs ih =>
    simp only [List.cons_append, q1, Bool.and_eq_true] at h
    obtain ⟨⟨h1, h2⟩, h3⟩ := h
    have hbh : (!(isBlank c && blankHead cs)) = true := by
      cases cs with
      | nil => simp [blankHead]
      | cons d ds => exact h2
    simp only [q1, Bool.and_eq_true]
    exact ⟨⟨h1, hbh⟩, ih h3⟩

theorem q2_append_right (a b : List Char) (h : q2 (a ++ b) = true) : q2 b = true := by
  induction a with
  | nil => simpa using h
  | cons c cs ih =>
    simp only [List.cons_append, q2, Bool.and_eq_true] at h
    exact ih h.2

theorem q2_append_left (a b : List Char) (h : q2 (a ++ b) = true) : q2 a = true := by
  induction a with
  | nil => rfl
  | cons c cs ih =>
    simp only [List.cons_append, q2, Bool.and_eq_true] at h
    obtain ⟨h2, h3⟩ := h
    have hbh : (!(isWsp c && nlHead cs)) = true := by
      cases cs with
      | nil => simp [nlHead]
      | cons d ds => exact h2
    simp only [q2, Bool.and_eq_true]
    exact ⟨hbh, ih h3⟩

theorem trim_decomp (l : List Char) :
    ∃ t1 t2, l = t1 ++ (trimWs l ++ t2) := by
  refine ⟨l.takeWhile isWsp,
    ((l.dropWhile isWsp).reverse.takeWhile isWsp).reverse, ?_⟩
  have h1 : l.takeWhile isWsp ++ l.dropWhile isWsp = l :=
    List.takeWhile_append_dropWhile isWsp l
  have h2 : (l.dropWhile isWsp).reverse.takeWhile isWsp ++
      (l.dropWhile isWsp).reverse.dropWhile isWsp = (l.dropWhile isWsp).reverse :=
    List.takeWhile_append_dropWhile isWsp (l.dropWhile isWsp).reverse
  have h3 : ((l.dropWhile isWsp).reverse.dropWhile isWsp).reverse ++
      ((l.dropWhile isWsp).reverse.takeWhile isWsp).reverse = l.dropWhile isWsp := by
    rw [← List.reverse_append, h2, List.reverse_reverse]
  show l = l.takeWhile isWsp ++
    (((l.dropWhile isWsp).reverse.dropWhile isWsp).reverse ++
      ((l.dropWhile isWsp).reverse.takeWhile isWsp).reverse)
  rw [h3, h1]

theorem headFails_dropWhile (p : Char → Bool) (l : List Char) :
    ∀ c, (l.dropWhile p).head? = some c → p c = false := by
  induction l with
  | nil => intro c h; simp at h
  | cons a as ih =>
    intro c h
    rw [List.dropWhile_cons] at h
    by_cases hp : p a
    · rw [if_pos hp] at h; exact ih c h
    · rw [if_neg hp] at h
      simp only [List.head?] at h
      cases h
      simpa using hp

theorem dropWhile_of_headFails (p : Char → Bool) (l : List Char)
    (h : ∀ c, l.head? = some c → p c = false) : l.dropWhile p = l := by
  cases l with
  | nil => rfl
  | cons a as =>
    have := h a rfl
    rw [List.dropWhile_cons, if_neg (by simp [this])]

theorem trim_idem (l : List Char) : trimWs (trimWs l) = trimWs l := by
  set m := l.dropWhile isWsp with hm
  set X := m.reverse.dropWhile isWsp with hX
  have hXfail : ∀ c, X.head? = some c → isWsp c = false :=
    headFails_dropWhile isWsp m.reverse
  have hXrev : ∀ c, X.reverse.head? = some c → isWsp c = false := by
    intro c hc
    cases hXe : X with
    | nil => rw [hXe] at hc; simp at hc
    | cons x xs =>
      have h1 : X.reverse.head? = X.getLast? := by
        have := List.getLast?_reverse X.reverse
        rw [List.reverse_reverse] at this
        exact this.symm
      have hsplit : m.reverse.takeWhile isWsp ++ X = m.reverse :=
        List.takeWhile_append_dropWhile isWsp m.reverse
      have hne : X ≠ [] := by rw [hXe]; simp
      have h2 : (m.reverse.takeWhile isWsp ++ X).getLast? = X.getLast? :=
        List.getLast?_append_of_ne_nil (m.reverse.takeWhile isWsp) hne
      rw [hsplit] at h2
      have h3 : m.reverse.getLast? = m.head? := List.getLast?_reverse m
      have : m.head? = some c := by rw [← h3, h2, ← h1, hc]
      exact headFails_dropWhile isWsp l c this
  have step1 : X.reverse.dropWhile isWsp = X.reverse :=
    dropWhile_of_headFails isWsp X.reverse hXrev
  have step2 : X.dropWhile isWsp = X :=
    dropWhile_of_headFails isWsp X hXfail
  show ((X.reverse.dropWhile isWsp).reverse.dropWhile isWsp).reverse = X.reverse
  rw [step1, List.reverse_reverse, step2]

theorem isWsp_of_isBlank (c : Char) (h : isBlank c = true) : isWsp c = true := by
  simp only [isBlank, Bool.or_eq_true] at h
  rcases h with h | h <;> simp [isWsp, h]

theorem blankHead_sub2 (l : List Char) (hw : wsThenNewline l = false)
    (hb : blankHead l = false) : blankHead (sub2 l) = false := by
  cases l with
  | nil => rfl
  | cons d ds =>
    simp only [blankHead] at hb
    cases hws : isWsp d with
    | false => simp [sub2, hws, blankHead, hb]
    | true =>
      have hd : (d == '\n') = false := by
        cases hnl : d == '\n' with
        | true =>
          have : d = '\n' := by simpa using hnl
          subst this; simp [wsThenNewline] at hw
        | false => rfl
      have hwt : wsThenNewline ds = false := by
        simpa [wsThenNewline, hd, hws] using hw
      simp [sub2, hws, hwt, blankHead, hb]

theorem sub2_preserves_q1 (l : List Char) (h : q1 l = true) : q1 (sub2 l) = true := by
  induction l with
  | nil => rfl
  | cons c cs ih =>
    simp only [q1, Bool.and_eq_true] at h
    obtain ⟨⟨ht, hbb⟩, hq⟩ := h
    cases hd : isWsp c && wsThenNewline cs with
    | true => simpa [sub2, hd] using ih hq
    | false =>
      simp only [sub2, hd, if_false]
      have hnb : (isBlank c && blankHead (sub2 cs)) = false := by
        cases hbc : isBlank c with
        | false => simp [hbc]
        | true =>
          have hws := isWsp_of_isBlank c hbc
          have hwt : wsThenNewline cs = false := by
            cases hwt : wsThenNewline cs with
            | true => rw [hws, hwt] at hd; simp at hd
            | false => rfl
          have hbh : blankHead cs = false := by
            cases hbh : blankHead cs with
            | true => rw [hbc, hbh] at hbb; simp at hbb
            | false => rfl
          simp [blankHead_sub2 cs hwt hbh]
      simp only [q1, Bool.and_eq_true]
      exact ⟨⟨ht, by simp [hnb]⟩, ih hq⟩

theorem q1_trim (l : List Char) (h : q1 l = true) : q1 (trimWs l) = true := by
  obtain ⟨t1, t2, hd⟩ := trim_decomp l
  rw [hd] at h
  exact q1_append_left _ _ (q1_append_right t1 _ h)

theorem q2_trim (l : List Char) (h : q2 l = true) : q2 (trimWs l) = true := by
  obtain ⟨t1, t2, hd⟩ := trim_decomp l
  rw [hd] at h
  exact q2_append_left _ _ (q2_append_right t1 _ h)

/-! ### Asset URL Extractor: the `normalize and filter` loop of `_extract_img_url_from` -/

def BASE : String := "https://www.thismighthurttarot.com"

/-- Python `u.split("?")[0]`. -/
def stripQuery (u : String) : String := String.mk (u.data.takeWhile (fun c => !(c == '?')))

def strEndsWith (s suffix : String) : Bool :=
  startsWithList suffix.data.reverse s.data.reverse

def BAD_SUBSTRINGS : List String := ["logo", "header", "favicon", "sprite"]

def IMG_EXTS : List String := [".jpg", ".jpeg", ".png", ".webp", ".gif"]

def endsWithAnyExt (s : String) : Bool := IMG_EXTS.any (fun e => strEndsWith s e)

/-- Modelled from the library function `urllib.parse.urljoin` for the URL shapes
relevant here: an absolute URL is returned unchanged, a scheme-relative URL
inherits the base's scheme, and otherwise the path is resolved against the
base origin (the fixed `BASE` has an empty path). -/
def urljoin (base u : String) : String :=
  if containsStr u "://" then u
  else if startsWithList ['/', '/'] u.data then "https:" ++ u
  else if startsWithList ['/'] u.data then base ++ u
  else base ++ "/" ++ u

/-- One iteration of the `normalize & filter` loop (lines 62-70):
skip empty, strip the query string, lower-case for matching, drop site
chrome, keep image-extension or `/images/` URLs, resolved against `BASE`. -/
def keep_url (u : String) : Option String :=
  if u == "" then none
  else
    let base_u := stripQuery u
    let low := pyLowerStr base_u
    if BAD_SUBSTRINGS.any (fun b => containsStr low b) then none
    else if endsWithAnyExt low || containsStr low "/images/" then
      some (urljoin BASE base_u)
    else none

def cleanedUrls (urls : List String) : List String := urls.filterMap keep_url

/-- The same step written from the spec's words (§4.3 post-processing), for
comparison with the source-derived `keep_url`: a non-empty URL is kept iff
its lower-cased query-stripped form avoids every chrome substring and ends in
an image extension or contains "/images/", and is resolved against the base. -/
def spec_keep_url (u : String) : Option String :=
  if !(u == "") &&
      BAD_SUBSTRINGS.all (fun b => !(containsStr (pyLowerStr (stripQuery u)) b)) &&
      (endsWithAnyExt (pyLowerStr (stripQuery u)) ||
        containsStr (pyLowerStr (stripQuery u)) "/images/") then
    some (urljoin BASE (stripQuery u))
  else none

theorem all_not_eq_not_any {α : Type} (p : α → Bool) (l : List α) :
    l.all (fun x => !(p x)) = !(l.any p) := by
  induction l with
  | nil => rfl
  | cons a as ih => simp [List.all_cons, List.any_cons, ih]

theorem keep_url_eq_spec (u : String) : keep_url u = spec_keep_url u := by
  simp only [keep_url, spec_keep_url, all_not_eq_not_any]
  cases h0 : u == "" with
  | true => simp [h0]
  | false =>
    cases hbad : BAD_SUBSTRINGS.any (fun b => containsStr (pyLowerStr (stripQuery u)) b) with
    | true => simp [h0, hbad]
    | false =>
      cases hkeep : endsWithAnyExt (pyLowerStr (stripQuery u)) ||
          containsStr (pyLowerStr (stripQuery u)) "/images/" with
      | true => simp [h0, hbad, hkeep]
      | false => simp [h0, hbad, hkeep]

theorem filterMap_congr_fun {α β : Type} (f g : α → Option β)
    (h : ∀ a, f a = g a) : ∀ l : List α, l.filterMap f = l.filterMap g := by
  intro l
  induction l with
  | nil => rfl
  | cons a as ih => rw [List.filterMap_cons, List.filterMap_cons, h a, ih]

/-- C7: URL post-processing — the query string is stripped, URLs whose
lower-cased form contains "logo"/"header"/"favicon"/"sprite" are discarded,
a URL is kept only when it ends in a recognized image extension or contains
"/images/", every survivor is resolved against `BASE`; the two concrete
example URLs behave as the spec says. -/
theorem c7_url_filter (urls : List String) :
    cleanedUrls urls = urls.filterMap spec_keep_url ∧
    cleanedUrls ["https://cdn.site/logo_small.png"] = [] ∧
    cleanedUrls ["https://cdn.site/images/AceOfWands_forWeb.jpg"]
      = ["https://cdn.site/images/AceOfWands_forWeb.jpg"] := by
  refine ⟨filterMap_congr_fun _ _ keep_url_eq_spec urls, by decide, by decide⟩

/-! ### `card_filename_tokens` (the Filename Token Deriver) -/

def RANKS_LIST : List String :=
  ["Ace", "Two", "Three", "Four", "Five", "Six", "Seven", "Eight", "Nine",
   "Ten", "Page", "Knight", "Queen", "King"]

def NUMERIC_RANK : List (String × String) :=
  [("Two", "2"), ("Three", "3"), ("Four", "4"), ("Five", "5"), ("Six", "6"),
   ("Seven", "7"), ("Eight", "8"), ("Nine", "9"), ("Ten", "10")]

/-- Case-insensitive literal match: consume `pat` (case-insensitively) from the
front of the input, returning the remainder. -/
def stripPrefixCI : List Char → List Char → Option (List Char)
  | [], l => some l
  | _ :: _, [] => none
  | p :: ps, c :: cs => if pyLower c == pyLower p then stripPrefixCI ps cs else none

/-- Greedy `\s+`: require at least one whitespace character, then consume the
whole whitespace run. -/
def chompWs1 : List Char → Option (List Char)
  | [] => none
  | c :: cs => if isWsp c then some (cs.dropWhile isWsp) else none

/-- Python `\w` (ASCII). -/
def isWordChar (c : Char) : Bool :=
  (decide ('a' ≤ c) && decide (c ≤ 'z')) || (decide ('A' ≤ c) && decide (c ≤ 'Z')) ||
  (decide ('0' ≤ c) && decide (c ≤ '9')) || c == '_'

def isAsciiAlpha (c : Char) : Bool :=
  (decide ('a' ≤ c) && decide (c ≤ 'z')) || (decide ('A' ≤ c) && decide (c ≤ 'Z'))

/-- Python `str.title()` (ASCII): a letter is upper-cased when the previous
character is not a letter, lower-cased otherwise. -/
def pyTitleGo : Bool → List Char → List Char
  | _, [] => []
  | prevAlpha, c :: cs =>
    (if isAsciiAlpha c then (if prevAlpha then pyLower c else pyUpper c) else c) ::
      pyTitleGo (isAsciiAlpha c) cs

def pyTitle (w : List Char) : List Char := pyTitleGo false w

/-- `re.match(r"^(Ace|...|King)\s+of\s+(\w+)", title, re.I)`, returning the
title-cased groups `(m.group(1).title(), m.group(2).title())`.  The rank
alternation is ordered and the rank words are not prefixes of one another, so
the first alternative that lets the whole pattern match is the match; the
title-cased rank text equals the canonical rank word itself. -/
def matchRankWord (title : List Char) : Option (String × String) :=
  (RANKS_LIST.filterMap (fun r =>
    match stripPrefixCI r.data title with
    | none => none
    | some rest =>
      match chompWs1 rest with
      | none => none
      | some rest2 =>
        match stripPrefixCI ['o', 'f'] rest2 with
        | none => none
        | some rest3 =>
          match chompWs1 rest3 with
          | none => none
          | some rest4 =>
            let w := rest4.takeWhile isWordChar
            if w.isEmpty then none
            else some (r, String.mk (pyTitle w)))).head?

/-- `re.sub(r"^The\s+", "", title, flags=re.I)`. -/
def stripLeadingThe (title : List Char) : List Char :=
  match stripPrefixCI ['t', 'h', 'e'] title with
  | some (c :: cs) => if isWsp c then cs.dropWhile isWsp else title
  | _ => title

def removeSpaces (l : List Char) : List Char := l.filter (fun c => !(c == ' '))

/-- Faithful translation of `card_filename_tokens` (lines 75-90). -/
def card_filename_tokens (title_text suit_arcana : String) : List String :=
  let title := pyStrip title_text
  let toks : List String :=
    if suit_arcana == "Major Arcana" then
      [String.mk (removeSpaces (stripLeadingThe title.data)),
       String.mk (removeSpaces title.data)]
    else
      match matchRankWord title.data with
      | none => []
      | some (rank, suit) =>
        let first := rank ++ "Of" ++ suit
        match NUMERIC_RANK.lookup rank with
        | some d => [first, d ++ "of" ++ suit]
        | none => [first]
  toks.map pyLowerStr

/-- C3 counterexample: for the title "Ace of Wands" in section "Wands" the
token list does NOT contain "1ofwands" — `NUMERIC_RANK` maps only Two..Ten,
so Ace produces no numeric token. -/
theorem c3_counterexample :
    (card_filename_tokens "Ace of Wands" "Wands").contains "1ofwands" = false := by
  decide

/-- C3 (amended): for "Ace of Wands" in "Wands" the Filename Token Deriver
returns exactly ["aceofwands"]; it contains "aceofwands" but no numeric form,
since numeric tokens exist only for the ranks Two..Ten (e.g. "2ofwands" for
"Two of Wands"). -/
theorem c3_amended :
    card_filename_tokens "Ace of Wands" "Wands" = ["aceofwands"] ∧
    (card_filename_tokens "Two of Wands" "Wands").contains "2ofwands" = true := by
  exact ⟨by decide, by decide⟩

/-! ### Subtitle heuristic (`looks_like_subtitle` and lines 263-268)

The title pattern is anchored at both ends, so `title_pat.search(txt)` on the
already-stripped candidate is the same test as a full match; the pattern is
abstracted here as a Boolean predicate `pat`. -/

def headUpper (s : String) : Bool :=
  match s.data with
  | [] => false
  | c :: _ => c.isUpper

/-- Faithful translation of `looks_like_subtitle` (lines 188-191). -/
def looks_like_subtitle (pat : String → Bool) (txt : String) : Bool :=
  if txt == "" then false
  else if pat txt then false
  else decide (3 ≤ txt.length) && decide (txt.length ≤ 60) && headUpper txt

/-- Lines 263-268: find the first text node after the title whose stripped
form is non-empty; the subtitle is its stripped text when the heuristic
accepts it, and `""` otherwise.  `nodes` lists the text nodes following the
title node in `find_next` document order. -/
def subtitle_of (pat : String → Bool) (nodes : List String) : String :=
  match nodes.find? (fun s => !(pyStrip s == "")) with
  | none => ""
  | some s =>
    let cand := pyStrip s
    if looks_like_subtitle pat cand then cand else ""

/-- C2: the subtitle is determined by exactly the first non-empty text node
after the title, and is set to that (stripped) text iff the text is
non-empty, does not match the title pattern, has length in [3,60] and starts
with an uppercase letter; otherwise it is empty. -/
theorem c2_subtitle (pat : String → Bool) (nodes : List String) :
    subtitle_of pat nodes =
      match nodes.find? (fun s => !(pyStrip s == "")) with
      | none => ""
      | some s =>
        if pyStrip s ≠ "" ∧ pat (pyStrip s) = false ∧ 3 ≤ (pyStrip s).length ∧
            (pyStrip s).length ≤ 60 ∧ headUpper (pyStrip s) = true then pyStrip s
        else "" := by
  cases hfind : nodes.find? (fun s => !(pyStrip s == "")) with
  | none => simp [subtitle_of, hfind]
  | some s =>
    have hne : (pyStrip s == "") = false := by
      have := List.find?_some hfind
      simpa using this
    have hne' : pyStrip s ≠ "" := by simpa using hne
    simp only [subtitle_of, hfind, looks_like_subtitle, hne, Bool.false_eq_true, if_false]
    by_cases hpat : pat (pyStrip s) = true
    · simp [hpat]
    · have hpat' : pat (pyStrip s) = false := by simpa using hpat
      by_cases h3 : 3 ≤ (pyStrip s).length
      · by_cases h60 : (pyStrip s).length ≤ 60
        · cases hup : headUpper (pyStrip s) with
          | true => simp [hpat', h3, h60, hup, hne']
          | false => simp [hpat', h3, h60, hup]
        · simp [hpat', h3, h60]
      · simp [hpat', h3]

/-! ### Stable sorting

`sorted(xs, key=k, reverse=True)` is a stable descending sort: its head is
the first element attaining the maximal key.  We model sorting by a stable
insertion sort parametrised by `r x y`, the condition for `x` to be placed
before `y`. -/

def insertBy {α : Type} (r : α → α → Bool) (x : α) : List α → List α
  | [] => [x]
  | y :: ys => if r x y then x :: y :: ys else y :: insertBy r x ys

def sortBy' {α : Type} (r : α → α → Bool) (l : List α) : List α :=
  l.foldr (insertBy r) []

theorem mem_insertBy {α : Type} (r : α → α → Bool) (x : α) (l : List α) (z : α) :
    z ∈ insertBy r x l ↔ z = x ∨ z ∈ l := by
  induction l with
  | nil => simp [insertBy]
  | cons y ys ih =>
    simp only [insertBy]
    split_ifs
    · simp [List.mem_cons]
    · simp only [List.mem_cons, ih]
      tauto

theorem mem_sortBy' {α : Type} (r : α → α → Bool) (l : List α) (z : α) :
    z ∈ sortBy' r l ↔ z ∈ l := by
  induction l with
  | nil => simp [sortBy']
  | cons a as ih =>
    show z ∈ insertBy r a (sortBy' r as) ↔ _
    rw [mem_insertBy, ih]
    simp [List.mem_cons]

theorem length_insertBy {α : Type} (r : α → α → Bool) (x : α) (l : List α) :
    (insertBy r x l).length = l.length + 1 := by
  induction l with
  | nil => rfl
  | cons y ys ih =>
    simp only [insertBy]
    split_ifs <;> simp [ih]

theorem length_sortBy' {α : Type} (r : α → α → Bool) (l : List α) :
    (sortBy' r l).length = l.length := by
  induction l with
  | nil => rfl
  | cons a as ih =>
    show (insertBy r a (sortBy' r as)).length = _
    rw [length_insertBy, ih, List.length_cons]

theorem chain'_insertBy {α : Type} (r : α → α → Bool)
    (htot : ∀ a b, r a b = true ∨ r b a = true) (x : α) (l : List α)
    (h : l.Chain' (fun a b => r a b = true)) :
    (insertBy r x l).Chain' (fun a b => r a b = true) := by
  induction l with
  | nil => simp [insertBy]
  | cons y ys ih =>
    simp only [insertBy]
    split_ifs with hr
    · exact List.chain'_cons.mpr ⟨hr, h⟩
    · have hyx : r y x = true := by
        rcases htot x y with h1 | h1
        · exact absurd h1 hr
        · exact h1
      cases ys with
      | nil => exact List.chain'_cons.mpr ⟨hyx, List.chain'_singleton x⟩
      | cons z zs =>
        rw [List.chain'_cons] at h
        have hins := ih h.2
        simp only [insertBy] at hins ⊢
        split_ifs at hins ⊢ with hr2
        · exact List.chain'_cons.mpr ⟨hyx, hins⟩
        · exact List.chain'_cons.mpr ⟨h.1, hins⟩

theorem chain'_sortBy' {α : Type} (r : α → α → Bool)
    (htot : ∀ a b, r a b = true ∨ r b a = true) (l : List α) :
    (sortBy' r l).Chain' (fun a b => r a b = true) := by
  induction l with
  | nil => exact List.chain'_nil
  | cons a as ih => exact chain'_insertBy r htot a (sortBy' r as) ih

theorem chain'_head_rel {α : Type} (r : α → α → Bool)
    (htrans : ∀ a b c, r a b = true → r b c = true → r a c = true)
    (x : α) (l : List α) (h : (x :: l).Chain' (fun a b => r a b = true)) :
    ∀ z ∈ l, r x z = true := by
  induction l generalizing x with
  | nil => intro z hz; simp at hz
  | cons y ys ih =>
    rw [List.chain'_cons] at h
    intro z hz
    rcases List.mem_cons.mp hz with rfl | hz'
    · exact h.1
    · exact htrans x y z h.1 (ih y h.2 z hz')

/-! ### `nearest_card_image_url` (the Nearest-Image Resolver) -/

/-- Strict lexicographic order on integer triples — Python's `<` on 3-tuples. -/
def lexLt (a b : Int × Int × Int) : Bool :=
  if a.1 < b.1 then true
  else if b.1 < a.1 then false
  else if a.2.1 < b.2.1 then true
  else if b.2.1 < a.2.1 then false
  else decide (a.2.2 < b.2.2)

theorem lexLt_irrefl (a : Int × Int × Int) : lexLt a a = false := by
  simp [lexLt]

theorem lexLt_asymm (a b : Int × Int × Int) (h : lexLt a b = true) :
    lexLt b a = false := by
  unfold lexLt at h ⊢
  split_ifs at h ⊢ <;> simp_all <;> omega

theorem not_lexLt_trans (a b c : Int × Int × Int) (hab : lexLt a b = false)
    (hbc : lexLt b c = false) : lexLt a c = false := by
  unfold lexLt at hab hbc ⊢
  split_ifs at hab hbc ⊢ <;> simp_all <;> omega

theorem lexLt_of_fst_lt (a b : Int × Int × Int) (h : a.1 < b.1) :
    lexLt a b = true := by
  unfold lexLt
  rw [if_pos h]

theorem lexLt_thd (a b : Int × Int × Int) (h1 : a.1 = b.1) (h2 : a.2.1 = b.2.1) :
    lexLt a b = decide (a.2.2 < b.2.2) := by
  unfold lexLt
  rw [h1, h2]
  simp

/-- `sc += 20` for every filename token contained in the lower-cased URL. -/
def tokenScore (tokens : List String) (ul : String) : Int :=
  tokens.foldl (fun sc t => if containsStr ul t then sc + 20 else sc) 0

/-- The local `score` closure of `nearest_card_image_url` (lines 158-172):
`(before_bonus, -distance, sc)`. -/
def scoreKey (title_idx : Nat) (tokens : List String) (c : Nat × String) :
    Int × Int × Int :=
  let ul := pyLowerStr c.2
  let sc0 := tokenScore tokens ul
  let sc1 := if containsStr ul "_forweb" || containsStr ul "forweb" ||
      containsStr ul "/images/" then sc0 + 2 else sc0
  let sc2 := if endsWithAnyExt ul then sc1 + 1 else sc1
  let distance : Int := (((c.1 : Int) - (title_idx : Int)).natAbs : Int)
  let before_bonus : Int := if c.1 < title_idx then 10 else 0
  (before_bonus, -distance, sc2)

/-- `x` sorts before `y` in `sorted(candidates, key=score, reverse=True)`
exactly when `score x` is not lexicographically below `score y`. -/
def candidate_rank (title_idx : Nat) (tokens : List String)
    (c c' : Nat × String) : Bool :=
  !(lexLt (scoreKey title_idx tokens c) (scoreKey title_idx tokens c'))

/-- Lines 152-176: `if not candidates: return None`, otherwise the URL of the
head of the descending stable sort by `score`. -/
def nearest_from_candidates (title_idx : Nat) (tokens : List String)
    (cands : List (Nat × String)) : Option String :=
  if cands.isEmpty then none
  else ((sortBy' (candidate_rank title_idx tokens) cands).head?).map Prod.snd

/-- The inner loop of the candidate harvest (lines 146-150): URLs of one
node, deduplicated against `seen`, keeping the first-seen index. -/
def addNode (idx : Nat) : List String → List String → List String × List (Nat × String)
  | seen, [] => (seen, [])
  | seen, u :: us =>
    if seen.contains u then addNode idx seen us
    else
      let p := addNode idx (u :: seen) us
      (p.1, (idx, u) :: p.2)

def harvestLoop : Nat → List String → List (List String) → List (Nat × String)
  | _, _, [] => []
  | idx, seen, us :: rest =>
    let p := addNode idx seen us
    p.2 ++ harvestLoop (idx + 1) p.1 rest

/-- Lines 143-150: enumerate the flattened nodes (given here by the already
extracted-and-filtered URL list of each node) and collect each first-seen URL
with its node index. -/
def harvest (nodeUrls : List (List String)) : List (Nat × String) :=
  harvestLoop 0 [] nodeUrls

/-- `nearest_card_image_url` (lines 124-176).  The boundary flattening is
abstracted: `title_idx` is the title element's position in the flattened node
list and `nodeUrls` gives each node's raw harvested URLs, which are filtered
exactly as `_extract_img_url_from` does. -/
def nearest_card_image_url (title_idx : Nat) (title_text suit_arcana : String)
    (nodeUrls : List (List String)) : Option String :=
  nearest_from_candidates title_idx (card_filename_tokens title_text suit_arcana)
    (harvest (nodeUrls.map cleanedUrls))

theorem candidate_rank_total (T : Nat) (tokens : List String) :
    ∀ a b, candidate_rank T tokens a b = true ∨ candidate_rank T tokens b a = true := by
  intro a b
  unfold candidate_rank
  cases h : lexLt (scoreKey T tokens a) (scoreKey T tokens b) with
  | false => exact Or.inl (by simp [h])
  | true => exact Or.inr (by simp [lexLt_asymm _ _ h])

theorem candidate_rank_trans (T : Nat) (tokens : List String) :
    ∀ a b c, candidate_rank T tokens a b = true → candidate_rank T tokens b c = true →
      candidate_rank T tokens a c = true := by
  intro a b c hab hbc
  unfold candidate_rank at hab hbc ⊢
  simp only [Bool.not_eq_true'] at hab hbc ⊢
  exact not_lexLt_trans _ _ _ hab hbc

/-- C1: whenever the harvested candidate set is empty the resolver returns
`none`; whenever it returns a URL, that URL belongs to a harvested candidate
whose score tuple `(before-flag, -distance, token-score)` is lexicographically
maximal among all candidates — in particular, if any candidate lies before
the title then the chosen one does. -/
theorem c1_nearest_image (T : Nat) (title suit : String)
    (nodeUrls : List (List String)) :
    (harvest (nodeUrls.map cleanedUrls) = [] →
      nearest_card_image_url T title suit nodeUrls = none) ∧
    (∀ u, nearest_card_image_url T title suit nodeUrls = some u →
      ∃ c, c ∈ harvest (nodeUrls.map cleanedUrls) ∧ c.2 = u ∧
        (∀ c' ∈ harvest (nodeUrls.map cleanedUrls),
          lexLt (scoreKey T (card_filename_tokens title suit) c)
            (scoreKey T (card_filename_tokens title suit) c') = false) ∧
        (∀ c' ∈ harvest (nodeUrls.map cleanedUrls), c'.1 < T → c.1 < T)) := by
  constructor
  · intro h
    simp [nearest_card_image_url, nearest_from_candidates, h]
  · intro u hu
    have hne : harvest (nodeUrls.map cleanedUrls) ≠ [] := by
      intro h
      simp [nearest_card_image_url, nearest_from_candidates, h] at hu
    cases hs : sortBy' (candidate_rank T (card_filename_tokens title suit))
        (harvest (nodeUrls.map cleanedUrls)) with
    | nil =>
      exfalso
      have := length_sortBy' (candidate_rank T (card_filename_tokens title suit))
        (harvest (nodeUrls.map cleanedUrls))
      rw [hs] at this
      exact hne (List.length_eq_zero.mp this.symm)
    | cons c rest =>
      have hie : (harvest (nodeUrls.map cleanedUrls)).isEmpty = false := by
        cases hh : harvest (nodeUrls.map cleanedUrls) with
        | nil => exact absurd hh hne
        | cons a as => rfl
      have hu' : c.2 = u := by
        simp only [nearest_card_image_url, nearest_from_candidates, hie,
          Bool.false_eq_true, if_false, hs, List.head?, Option.map_some'] at hu
        exact Option.some.inj hu
      have hcmem : c ∈ harvest (nodeUrls.map cleanedUrls) := by
        have : c ∈ sortBy' (candidate_rank T (card_filename_tokens title suit))
            (harvest (nodeUrls.map cleanedUrls)) := by
          rw [hs]; exact List.mem_cons_self c rest
        exact (mem_sortBy' _ _ _).mp this
      have hmax : ∀ c' ∈ harvest (nodeUrls.map cleanedUrls),
          lexLt (scoreKey T (card_filename_tokens title suit) c)
            (scoreKey T (card_filename_tokens title suit) c') = false := by
        intro c' hc'
        have hmem' : c' ∈ sortBy' (candidate_rank T (card_filename_tokens title suit))
            (harvest (nodeUrls.map cleanedUrls)) := (mem_sortBy' _ _ _).mpr hc'
        rw [hs] at hmem'
        rcases List.mem_cons.mp hmem' with rfl | hrest
        · exact lexLt_irrefl _
        · have hchain := chain'_sortBy' (candidate_rank T (card_filename_tokens title suit))
            (candidate_rank_total T _) (harvest (nodeUrls.map cleanedUrls))
          rw [hs] at hchain
          have := chain'_head_rel _ (candidate_rank_trans T _) c rest hchain c' hrest
          simpa [candidate_rank] using this
      refine ⟨c, hcmem, hu', hmax, ?_⟩
      intro c' hc' hlt
      by_contra hnot
      have h1 : (scoreKey T (card_filename_tokens title suit) c).1 = 0 := by
        simp [scoreKey, hnot]
      have h2 : (scoreKey T (card_filename_tokens title suit) c').1 = 10 := by
        simp [scoreKey, hlt]
      have : lexLt (scoreKey T (card_filename_tokens title suit) c)
          (scoreKey T (card_filename_tokens title suit) c') = true :=
        lexLt_of_fst_lt _ _ (by rw [h1, h2]; norm_num)
      rw [hmax c' hc'] at this
      exact absurd this (by simp)

/-- Witness for C1 at concrete inputs: an empty region yields `none`, and on
a region with one candidate before the title (index 0) and one after
(index 2) the returned URL is that of a maximal-score candidate. -/
theorem c1_nearest_image_witness :
    (nearest_card_image_url 9 "Ace of Wands" "Wands" [] = none) ∧
    (∃ c, c ∈ harvest ([["https://x.example/a.jpg"], [],
        ["https://x.example/b.jpg"]].map cleanedUrls) ∧
      c.2 = "https://x.example/a.jpg" ∧
      (∀ c' ∈ harvest ([["https://x.example/a.jpg"], [],
          ["https://x.example/b.jpg"]].map cleanedUrls),
        lexLt (scoreKey 1 (card_filename_tokens "Ace of Wands" "Wands") c)
          (scoreKey 1 (card_filename_tokens "Ace of Wands" "Wands") c') = false) ∧
      (∀ c' ∈ harvest ([["https://x.example/a.jpg"], [],
          ["https://x.example/b.jpg"]].map cleanedUrls), c'.1 < 1 → c.1 < 1)) :=
  ⟨(c1_nearest_image 9 "Ace of Wands" "Wands" []).1 rfl,
   (c1_nearest_image 1 "Ace of Wands" "Wands"
      [["https://x.example/a.jpg"], [], ["https://x.example/b.jpg"]]).2
      "https://x.example/a.jpg" (by decide)⟩

theorem foldl_token_mono (ul : String) (tokens : List String) :
    ∀ init : Int,
      init ≤ tokens.foldl (fun sc t => if containsStr ul t then sc + 20 else sc) init := by
  induction tokens with
  | nil => intro init; simp
  | cons t ts ih =>
    intro init
    rw [List.foldl_cons]
    split_ifs
    · exact le_trans (by omega) (ih (init + 20))
    · exact ih init

theorem tokenScore_ge (tokens : List String) (ul : String)
    (h : ∃ t ∈ tokens, containsStr ul t = true) : 20 ≤ tokenScore tokens ul := by
  unfold tokenScore
  obtain ⟨t, hmem, hc⟩ := h
  induction tokens with
  | nil => simp at hmem
  | cons t0 ts ih =>
    rw [List.foldl_cons]
    rcases List.mem_cons.mp hmem with rfl | hmem'
    · simp only [hc, if_true]
      have := foldl_token_mono ul ts (0 + 20)
      omega
    · split_ifs
      · have := foldl_token_mono ul ts (0 + 20)
        omega
      · exact ih hmem'

theorem foldl_token_zero (ul : String) (tokens : List String)
    (h : ∀ t ∈ tokens, containsStr ul t = false) : tokenScore tokens ul = 0 := by
  unfold tokenScore
  induction tokens with
  | nil => rfl
  | cons t0 ts ih =>
    rw [List.foldl_cons, h t0 (List.mem_cons_self t0 ts)]
    exact ih (fun t ht => h t (List.mem_cons_of_mem t0 ht))

/-- C6 counterexample: title at index 5 with exactly two surviving candidates
at equal absolute distance 2, one before (index 3, no filename token) and one
after (index 7, containing the token "aceofwands") — the resolver picks the
token-free candidate before the title, not the one with the matching token. -/
theorem c6_counterexample :
    nearest_card_image_url 5 "Ace of Wands" "Wands"
        [[], [], [], ["https://x.example/card.jpg"], [], [], [],
          ["https://x.example/images/AceOfWands_forWeb.jpg"]]
      = some "https://x.example/card.jpg" ∧
    harvest ([[], [], [], ["https://x.example/card.jpg"], [], [], [],
        ["https://x.example/images/AceOfWands_forWeb.jpg"]].map cleanedUrls)
      = [(3, "https://x.example/card.jpg"),
         (7, "https://x.example/images/AceOfWands_forWeb.jpg")] ∧
    (((3 : Int) - 5).natAbs = ((7 : Int) - 5).natAbs) ∧
    (card_filename_tokens "Ace of Wands" "Wands").any
      (fun t => containsStr (pyLowerStr "https://x.example/images/AceOfWands_forWeb.jpg") t)
      = true ∧
    (card_filename_tokens "Ace of Wands" "Wands").any
      (fun t => containsStr (pyLowerStr "https://x.example/card.jpg") t) = false := by
  exact ⟨by decide, by decide, by decide, by decide, by decide⟩

/-- C6 (amended): for two equidistant candidates this holds when both lie on
the same side of the title — equivalently at the same flattened node index,
as when both URLs are harvested from the same node — where one URL contains a
filename token derived from the title and the other contains none: the
resolver selects the candidate with the matching token, whichever order the
two were harvested in.  (When the equidistant candidates lie on opposite
sides, the before-the-title candidate wins regardless of tokens, as C1's
counterpart records.) -/
theorem c6_amended (T idx : Nat) (title suit u1 u2 : String)
    (h1 : ∃ t ∈ card_filename_tokens title suit,
      containsStr (pyLowerStr u1) t = true)
    (h2 : ∀ t ∈ card_filename_tokens title suit,
      containsStr (pyLowerStr u2) t = false) :
    nearest_from_candidates T (card_filename_tokens title suit)
        [(idx, u1), (idx, u2)] = some u1 ∧
    nearest_from_candidates T (card_filename_tokens title suit)
        [(idx, u2), (idx, u1)] = some u1 := by
  set tokens := card_filename_tokens title suit with htok
  have hs1 : 20 ≤ (scoreKey T tokens (idx, u1)).2.2 := by
    have hts := tokenScore_ge tokens (pyLowerStr u1) h1
    simp only [scoreKey]
    split_ifs <;> omega
  have hs2 : (scoreKey T tokens (idx, u2)).2.2 ≤ 3 := by
    have hts := foldl_token_zero (pyLowerStr u2) tokens h2
    simp only [scoreKey]
    split_ifs <;> omega
  have hfst : (scoreKey T tokens (idx, u1)).1 = (scoreKey T tokens (idx, u2)).1 := rfl
  have hsnd : (scoreKey T tokens (idx, u1)).2.1 = (scoreKey T tokens (idx, u2)).2.1 := rfl
  have hlex12 : lexLt (scoreKey T tokens (idx, u1)) (scoreKey T tokens (idx, u2)) = false := by
    rw [lexLt_thd _ _ hfst hsnd]
    simp only [decide_eq_false_iff_not]
    omega
  have hlex21 : lexLt (scoreKey T tokens (idx, u2)) (scoreKey T tokens (idx, u1)) = true := by
    rw [lexLt_thd _ _ hfst.symm hsnd.symm]
    simp only [decide_eq_true_eq]
    omega
  have hr12 : candidate_rank T tokens (idx, u1) (idx, u2) = true := by
    simp [candidate_rank, hlex12]
  have hr21 : candidate_rank T tokens (idx, u2) (idx, u1) = false := by
    simp [candidate_rank, hlex21]
  constructor
  · simp [nearest_from_candidates, sortBy', insertBy, hr12]
  · simp [nearest_from_candidates, sortBy', insertBy, hr21]

/-- Witness for C6 (amended) at concrete inputs: same-index candidates, one
containing "aceofwands", the other none of the tokens. -/
theorem c6_amended_witness :
    nearest_from_candidates 2 (card_filename_tokens "Ace of Wands" "Wands")
        [(0, "https://x.example/images/AceOfWands_forWeb.jpg"),
         (0, "https://x.example/zzz.png")]
      = some "https://x.example/images/AceOfWands_forWeb.jpg" ∧
    nearest_from_candidates 2 (card_filename_tokens "Ace of Wands" "Wands")
        [(0, "https://x.example/zzz.png"),
         (0, "https://x.example/images/AceOfWands_forWeb.jpg")]
      = some "https://x.example/images/AceOfWands_forWeb.jpg" :=
  c6_amended 2 0 "Ace of Wands" "Wands"
    "https://x.example/images/AceOfWands_forWeb.jpg" "https://x.example/zzz.png"
    (by decide) (by decide)

/-- C4: the Text Normalizer `text_clean` is idempotent — normalizing
already-normalized text returns it unchanged. -/
theorem text_clean_idempotent (s : String) :
    text_clean (text_clean s) = text_clean s := by
  have hq1 : q1 (trimWs (sub2 (sub1 s.data))) = true :=
    q1_trim _ (sub2_preserves_q1 _ (q1_sub1 s.data))
  have hq2 : q2 (trimWs (sub2 (sub1 s.data))) = true :=
    q2_trim _ (q2_sub2 (sub1 s.data))
  show String.mk (trimWs (sub2 (sub1 (trimWs (sub2 (sub1 s.data)))))) = _
  rw [q1_fix _ hq1, q2_fix _ hq2, trim_idem]
  rfl

/-! ### Title patterns (`title_regex_for`) and the whitespace collapse of line 261

`title_regex_for` builds `^(MAJORS)$` for "Major Arcana" and
`^(RANKS)\s+of\s+<suit>$` otherwise, both case-insensitive and anchored, and
is used via `fullmatch`.  Line 261 normalizes the matched element text with
`re.sub(r"\s+", " ", ...)`, modelled by `collapseWs`. -/

def MAJORS_LIST : List String :=
  ["The Fool", "The Magician", "The High Priestess", "The Empress",
   "The Emperor", "The Hierophant", "The Lovers", "The Chariot", "Strength",
   "The Hermit", "The Wheel of Fortune", "Justice", "The Hanged Man", "Death",
   "Temperance", "The Devil", "The Tower", "The Star", "The Moon", "The Sun",
   "Judgement", "The World"]

/-- Case-insensitive string equality (a fully-anchored `re.I` literal match). -/
def eqCI (a b : String) : Bool := pyLowerStr a == pyLowerStr b

/-- The remainder after matching `^<r>\s+of\s+<suit>` case-insensitively. -/
def rankSuitRest (suit r txt : List Char) : Option (List Char) :=
  match stripPrefixCI r txt with
  | none => none
  | some rest =>
    match chompWs1 rest with
    | none => none
    | some rest2 =>
      match stripPrefixCI ['o', 'f'] rest2 with
      | none => none
      | some rest3 =>
        match chompWs1 rest3 with
        | none => none
        | some rest4 => stripPrefixCI suit rest4

def matchRankSuit (suit txt : List Char) : Bool :=
  RANKS_LIST.any (fun r => rankSuitRest suit r.data txt == some [])

/-- `title_regex_for(suit_arcana).fullmatch(txt)` as a Boolean test. -/
def titleFullmatch (suit_arcana txt : String) : Bool :=
  if suit_arcana == "Major Arcana" then MAJORS_LIST.any (fun m => eqCI txt m)
  else matchRankSuit suit_arcana.data txt.data

/-- `re.sub(r"\s+", " ", s)`: every maximal whitespace run becomes one space. -/
def collapseWs : List Char → List Char
  | [] => []
  | c :: cs =>
    if isWsp c then (if wspHead cs then collapseWs cs else ' ' :: collapseWs cs)
    else c :: collapseWs cs

def collapseWsStr (s : String) : String := String.mk (collapseWs s.data)

theorem collapse_nonws_append (a b : List Char) (ha : ∀ c ∈ a, isWsp c = false) :
    collapseWs (a ++ b) = a ++ collapseWs b := by
  induction a with
  | nil => rfl
  | cons c cs ih =>
    have hc := ha c (List.mem_cons_self c cs)
    have ih' := ih (fun x hx => ha x (List.mem_cons_of_mem c hx))
    simp [collapseWs, hc, ih']

theorem collapse_all_nonws (a : List Char) (ha : ∀ c ∈ a, isWsp c = false) :
    collapseWs a = a := by
  have h := collapse_nonws_append a [] ha
  have h0 : collapseWs [] = ([] : List Char) := rfl
  rw [h0, List.append_nil] at h
  exact h

theorem collapse_ws_append (w X : List Char) (hw : ∀ c ∈ w, isWsp c = true)
    (hne : w ≠ []) (hX : wspHead X = false) :
    collapseWs (w ++ X) = ' ' :: collapseWs X := by
  induction w with
  | nil => exact absurd rfl hne
  | cons c cs ih =>
    have hc := hw c (List.mem_cons_self c cs)
    cases cs with
    | nil => simp [collapseWs, hc, hX]
    | cons d ds =>
      have hd : isWsp d = true := hw d (List.mem_cons_of_mem c (List.mem_cons_self d ds))
      have hhead : wspHead ((d :: ds) ++ X) = true := by
        rw [List.cons_append]
        simp [wspHead, hd]
      have ih' := ih (fun x hx => hw x (List.mem_cons_of_mem c hx)) (by simp)
      rw [List.cons_append, collapseWs, if_pos hc, if_pos hhead]
      exact ih'

theorem mem_takeWhile_sat (p : Char → Bool) (l : List Char) :
    ∀ c ∈ l.takeWhile p, p c = true := by
  induction l with
  | nil => simp
  | cons a as ih =>
    rw [List.takeWhile_cons]
    split_ifs with hp
    · intro c hc
      rcases List.mem_cons.mp hc with rfl | hc'
      · exact hp
      · exact ih c hc'
    · simp

theorem stripPrefixCI_decomp (w : List Char) :
    ∀ l rest, stripPrefixCI w l = some rest →
      ∃ pre, l = pre ++ rest ∧ pre.map pyLower = w.map pyLower ∧
        ∀ Y, stripPrefixCI w (pre ++ Y) = some Y := by
  induction w with
  | nil =>
    intro l rest h
    have hl : l = rest := by simpa [stripPrefixCI] using h
    exact ⟨[], by simp [hl], rfl, fun Y => rfl⟩
  | cons p ps ih =>
    intro l rest h
    cases l with
    | nil => simp [stripPrefixCI] at h
    | cons c cs =>
      simp only [stripPrefixCI] at h
      cases hpc : pyLower c == pyLower p with
      | false => rw [hpc] at h; simp at h
      | true =>
        rw [hpc] at h
        simp only [if_true] at h
        obtain ⟨pre', h1, h2, h3⟩ := ih cs rest h
        refine ⟨c :: pre', by simp [h1], ?_, ?_⟩
        · have : pyLower c = pyLower p := by simpa using hpc
          simp [List.map_cons, h2, this]
        · intro Y
          simp only [List.cons_append, stripPrefixCI, hpc, if_true]
          exact h3 Y

theorem chompWs1_decomp (l rest : List Char) (h : chompWs1 l = some rest) :
    ∃ w, l = w ++ rest ∧ w ≠ [] ∧ (∀ c ∈ w, isWsp c = true) ∧
      wspHead rest = false := by
  cases l with
  | nil => simp [chompWs1] at h
  | cons c cs =>
    simp only [chompWs1] at h
    cases hc : isWsp c with
    | false => rw [hc] at h; simp at h
    | true =>
      rw [hc] at h
      simp only [if_true, Option.some.injEq] at h
      refine ⟨c :: cs.takeWhile isWsp, ?_, by simp, ?_, ?_⟩
      · rw [← h]
        simp only [List.cons_append, List.cons.injEq, true_and]
        exact (List.takeWhile_append_dropWhile isWsp cs).symm
      · intro x hx
        rcases List.mem_cons.mp hx with rfl | hx'
        · exact hc
        · exact mem_takeWhile_sat isWsp cs x hx'
      · rw [← h]
        cases hd : cs.dropWhile isWsp with
        | nil => rfl
        | cons a as =>
          have : isWsp a = false := by
            apply headFails_dropWhile isWsp cs
            rw [hd]
            rfl
          simp [wspHead, this]

theorem isWsp_pyLower (c : Char) : isWsp (pyLower c) = isWsp c := by
  unfold pyLower
  split <;> rfl

theorem pyLower_ws_eq (c : Char) (h : isWsp c = true) : pyLower c = c := by
  unfold pyLower
  split <;> simp_all [isWsp]

theorem wspHead_map_eq (a b : List Char) (h : a.map pyLower = b.map pyLower) :
    wspHead a = wspHead b := by
  cases a with
  | nil =>
    cases b with
    | nil => rfl
    | cons y ys => simp at h
  | cons x xs =>
    cases b with
    | nil => simp at h
    | cons y ys =>
      simp only [List.map_cons, List.cons.injEq] at h
      have : isWsp x = isWsp y := by
        rw [← isWsp_pyLower x, h.1, isWsp_pyLower y]
      simp [wspHead, this]

theorem nonws_of_mapLower (pre w : List Char) (h : pre.map pyLower = w.map pyLower)
    (hw : ∀ c ∈ w, isWsp c = false) : ∀ c ∈ pre, isWsp c = false := by
  induction pre generalizing w with
  | nil => simp
  | cons c cs ih =>
    cases w with
    | nil => simp at h
    | cons d ds =>
      simp only [List.map_cons, List.cons.injEq] at h
      intro x hx
      rcases List.mem_cons.mp hx with rfl | hx'
      · rw [← isWsp_pyLower x, h.1, isWsp_pyLower d]
        exact hw d (List.mem_cons_self d ds)
      · exact ih ds h.2 (fun c hc => hw c (List.mem_cons_of_mem d hc)) x hx'

theorem ne_nil_of_mapLower (pre w : List Char) (h : pre.map pyLower = w.map pyLower)
    (hw : w ≠ []) : pre ≠ [] := by
  intro hp
  cases w with
  | nil => exact hw rfl
  | cons d ds => rw [hp] at h; simp at h

theorem wspHead_false_of_nonws (a : List Char) (ha : ∀ c ∈ a, isWsp c = false) :
    wspHead a = false := by
  cases a with
  | nil => rfl
  | cons c cs => exact ha c (List.mem_cons_self c cs)

theorem wspHead_append_ne_nil (a b : List Char) (ha : a ≠ []) :
    wspHead (a ++ b) = wspHead a := by
  cases a with
  | nil => exact absurd rfl ha
  | cons c cs => rfl

theorem dropWhile_eq_self_of_wspHead (l : List Char) (h : wspHead l = false) :
    l.dropWhile isWsp = l := by
  cases l with
  | nil => rfl
  | cons c cs =>
    rw [List.dropWhile_cons, if_neg]
    simp only [wspHead] at h
    simp [h]

theorem ranks_nonws : ∀ r ∈ RANKS_LIST, ∀ c ∈ r.data, isWsp c = false := by decide

/-- Every whitespace run in the list is a single `' '`. -/
def onlySingleSpaces : List Char → Bool
  | [] => true
  | c :: cs => (if isWsp c then c == ' ' && !(wspHead cs) else true) && onlySingleSpaces cs

theorem majors_oss : ∀ m ∈ MAJORS_LIST, onlySingleSpaces m.data = true := by decide

theorem collapse_of_mapLower (txt : List Char) :
    ∀ lit : List Char, onlySingleSpaces lit = true →
      txt.map pyLower = lit.map pyLower → collapseWs txt = txt := by
  induction txt with
  | nil => intro lit _ _; rfl
  | cons c cs ih =>
    intro lit hoss h
    cases lit with
    | nil => simp at h
    | cons d ds =>
      simp only [List.map_cons, List.cons.injEq] at h
      obtain ⟨h1, h2⟩ := h
      simp only [onlySingleSpaces, Bool.and_eq_true] at hoss
      obtain ⟨hd1, hds⟩ := hoss
      have hwseq : isWsp c = isWsp d := by
        rw [← isWsp_pyLower c, h1, isWsp_pyLower d]
      cases hwc : isWsp c with
      | false =>
        rw [collapseWs, if_neg (by simp [hwc]), ih ds hds h2]
      | true =>
        have hwd : isWsp d = true := by rw [← hwseq]; exact hwc
        rw [hwd] at hd1
        simp only [if_true, Bool.and_eq_true, beq_iff_eq, Bool.not_eq_true'] at hd1
        have hc' : c = ' ' := by
          have hlc : pyLower c = c := pyLower_ws_eq c hwc
          rw [← hlc, h1, hd1.1]
          rfl
        have hwh : wspHead cs = wspHead ds := wspHead_map_eq cs ds h2
        rw [collapseWs, if_pos hwc, if_neg (by simp [hwh, hd1.2]), ih ds hds h2, hc']

theorem major_fullmatch_collapse (txt : String)
    (h : MAJORS_LIST.any (fun m => eqCI txt m) = true) :
    collapseWsStr txt = txt := by
  rw [List.any_eq_true] at h
  obtain ⟨m, hm, he⟩ := h
  have he' : String.mk (txt.data.map pyLower) = String.mk (m.data.map pyLower) := by
    simpa [eqCI, pyLowerStr] using he
  have hmap : txt.data.map pyLower = m.data.map pyLower := congrArg String.data he'
  show String.mk (collapseWs txt.data) = txt
  rw [collapse_of_mapLower txt.data m.data (majors_oss m hm) hmap]

theorem chompWs1_space (Z : List Char) (hZ : wspHead Z = false) :
    chompWs1 (' ' :: Z) = some Z := by
  simp only [chompWs1]
  rw [if_pos (by decide)]
  rw [dropWhile_eq_self_of_wspHead Z hZ]

theorem matchRankSuit_collapse (suit txt : List Char)
    (hsuit : ∀ c ∈ suit, isWsp c = false) (hsne : suit ≠ [])
    (h : matchRankSuit suit txt = true) :
    matchRankSuit suit (collapseWs txt) = true := by
  unfold matchRankSuit at h ⊢
  rw [List.any_eq_true] at h ⊢
  obtain ⟨r, hrmem, hr⟩ := h
  refine ⟨r, hrmem, ?_⟩
  have hr' : rankSuitRest suit r.data txt = some [] := by simpa using hr
  rw [show (rankSuitRest suit r.data (collapseWs txt) == some []) = true ↔
    rankSuitRest suit r.data (collapseWs txt) = some [] from by simp]
  unfold rankSuitRest at hr'
  split at hr'
  · exact absurd hr' (by simp)
  next rest h1 =>
    split at hr'
    · exact absurd hr' (by simp)
    next rest2 h2 =>
      split at hr'
      · exact absurd hr' (by simp)
      next rest3 h3 =>
        split at hr'
        · exact absurd hr' (by simp)
        next rest4 h4 =>
          obtain ⟨preR, hT1, hmapR, hYR⟩ := stripPrefixCI_decomp r.data txt rest h1
          obtain ⟨w1, hT2, hw1ne, hw1, hh2⟩ := chompWs1_decomp rest rest2 h2
          obtain ⟨preOf, hT3, hmapOf, hYOf⟩ :=
            stripPrefixCI_decomp ['o', 'f'] rest2 rest3 h3
          obtain ⟨w2, hT4, hw2ne, hw2, hh4⟩ := chompWs1_decomp rest3 rest4 h4
          obtain ⟨preS, hT5, hmapS, hYS⟩ := stripPrefixCI_decomp suit rest4 [] hr'
          have hpreS : rest4 = preS := by simpa using hT5
          have hRnw : ∀ c ∈ preR, isWsp c = false :=
            nonws_of_mapLower preR r.data hmapR (ranks_nonws r hrmem)
          have hOfnw : ∀ c ∈ preOf, isWsp c = false :=
            nonws_of_mapLower preOf ['o', 'f'] hmapOf (by decide)
          have hSnw : ∀ c ∈ preS, isWsp c = false :=
            nonws_of_mapLower preS suit hmapS hsuit
          have hOfne : preOf ≠ [] := ne_nil_of_mapLower preOf ['o', 'f'] hmapOf (by simp)
          have hSne : preS ≠ [] := ne_nil_of_mapLower preS suit hmapS hsne
          have htxt : txt = preR ++ (w1 ++ (preOf ++ (w2 ++ preS))) := by
            rw [hT1, hT2, hT3, hT4, hpreS]
          have e2 : collapseWs (w2 ++ preS) = ' ' :: preS := by
            rw [collapse_ws_append w2 preS hw2 hw2ne (wspHead_false_of_nonws preS hSnw),
              collapse_all_nonws preS hSnw]
          have e1 : collapseWs (preOf ++ (w2 ++ preS)) = preOf ++ (' ' :: preS) := by
            rw [collapse_nonws_append preOf _ hOfnw, e2]
          have hh : wspHead (preOf ++ (w2 ++ preS)) = false := by
            rw [wspHead_append_ne_nil preOf _ hOfne]
            exact wspHead_false_of_nonws preOf hOfnw
          have e0 : collapseWs (w1 ++ (preOf ++ (w2 ++ preS)))
              = ' ' :: (preOf ++ (' ' :: preS)) := by
            rw [collapse_ws_append w1 _ hw1 hw1ne hh, e1]
          have hcoll : collapseWs txt = preR ++ (' ' :: (preOf ++ (' ' :: preS))) := by
            rw [htxt, collapse_nonws_append preR _ hRnw, e0]
          have hch1 : chompWs1 (' ' :: (preOf ++ (' ' :: preS)))
              = some (preOf ++ (' ' :: preS)) := by
            apply chompWs1_space
            rw [wspHead_append_ne_nil preOf _ hOfne]
            exact wspHead_false_of_nonws preOf hOfnw
          have hch2 : chompWs1 (' ' :: preS) = some preS := by
            apply chompWs1_space
            exact wspHead_false_of_nonws preS hSnw
          have hYSnil : stripPrefixCI suit preS = some [] := by
            have := hYS []
            rwa [List.append_nil] at this
          rw [hcoll]
          unfold rankSuitRest
          rw [hYR (' ' :: (preOf ++ (' ' :: preS)))]
          simp only [hch1, hYOf (' ' :: preS), hch2, hYSnil]

/-! ### `parse_card_page` (the Page Parser)

The DOM is abstracted per candidate element: its visible text, the visible
texts of its descendants (for the deepest-match filter), the text nodes
following it in `find_next` order, the paragraph texts collected by
`collect_paragraphs`, its index in the flattened boundary and the raw image
URLs of every node of that boundary. -/

structure CardRecord where
  suit_arcana : String
  card : String
  subtitle : String
  description : String
  image_url : String
  page_url : String
deriving Repr, DecidableEq

structure PageEl where
  txt : String
  childTexts : List String
  textNodesAfter : List String
  paragraphs : List String
  titleIdx : Nat
  nodeUrls : List (List String)
deriving Repr, DecidableEq

/-- Python `sep.join(parts)`. -/
def pyJoin (sep : List Char) : List (List Char) → List Char
  | [] => []
  | [p] => p
  | p :: q :: ps => p ++ sep ++ pyJoin sep (q :: ps)

/-- Line 272: `text_clean("\n\n".join(desc_parts))`. -/
def description_of (parts : List String) : String :=
  text_clean (String.mk (pyJoin ['\n', '\n'] (parts.map String.data)))

/-- Lines 242-257: keep an element whose visible text is non-empty and fully
matches the title pattern, unless some descendant's non-empty text also fully
matches (deepest-match de-duplication). -/
def keepTitle (pat : String → Bool) (el : PageEl) : Bool :=
  !(el.txt == "") && pat el.txt &&
    !(el.childTexts.any (fun c => !(c == "") && pat c))

/-- Lines 259-284 of `parse_card_page`. -/
def parse_card_page (suit_arcana url : String) (els : List PageEl) : List CardRecord :=
  (els.filter (keepTitle (titleFullmatch suit_arcana))).map (fun el =>
    let title_text := collapseWsStr el.txt
    { suit_arcana := suit_arcana
      card := title_text
      subtitle := subtitle_of (titleFullmatch suit_arcana) el.textNodesAfter
      description := description_of el.paragraphs
      image_url :=
        (nearest_card_image_url el.titleIdx title_text suit_arcana el.nodeUrls).getD ""
      page_url := url })

/-- Lines 286-291: the record list together with the warning lines printed;
the warning is emitted exactly when no records were parsed.  (The function is
total: an empty page is not an error.) -/
def parse_card_page_result (suit_arcana url : String) (els : List PageEl) :
    List CardRecord × List String :=
  let rs := parse_card_page suit_arcana url els
  (rs,
    if rs.isEmpty then
      ["[warn] No cards parsed on " ++ url ++ " – site structure may have changed."]
    else [])

/-- C5: every record emitted by the Page Parser has a `card` field that fully
matches the section's (anchored, case-insensitive) title pattern. -/
theorem c5_card_fullmatch (suit_arcana url : String) (els : List PageEl)
    (hs : suit_arcana ∈ ["Major Arcana", "Wands", "Cups", "Swords", "Pentacles"]) :
    ∀ r ∈ parse_card_page suit_arcana url els,
      titleFullmatch suit_arcana r.card = true := by
  intro r hr
  simp only [parse_card_page, List.mem_map] at hr
  obtain ⟨el, helmem, hrec⟩ := hr
  have hkeep := (List.mem_filter.mp helmem).2
  have hmatch : titleFullmatch suit_arcana el.txt = true := by
    simp only [keepTitle, Bool.and_eq_true] at hkeep
    exact hkeep.1.2
  have hcard : r.card = collapseWsStr el.txt := by rw [← hrec]
  rw [hcard]
  by_cases hmaj : suit_arcana = "Major Arcana"
  · subst hmaj
    rw [major_fullmatch_collapse el.txt (by simpa [titleFullmatch] using hmatch)]
    exact hmatch
  · have hne : (suit_arcana == "Major Arcana") = false := by simp [hmaj]
    simp only [titleFullmatch, hne, Bool.false_eq_true, if_false] at hmatch ⊢
    have hdata : (collapseWsStr el.txt).data = collapseWs el.txt.data := rfl
    rw [hdata]
    have hsuit : ∀ c ∈ suit_arcana.data, isWsp c = false := by
      simp only [List.mem_cons, List.not_mem_nil, or_false] at hs
      rcases hs with rfl | rfl | rfl | rfl | rfl
      · exact absurd rfl hmaj
      all_goals decide
    have hsne : suit_arcana.data ≠ [] := by
      simp only [List.mem_cons, List.not_mem_nil, or_false] at hs
      rcases hs with rfl | rfl | rfl | rfl | rfl
      · exact absurd rfl hmaj
      all_goals decide
    exact matchRankSuit_collapse suit_arcana.data el.txt.data hsuit hsne hmatch

/-- Witness for C5 on a concrete one-title page: the single emitted record's
card matches the Wands title pattern. -/
theorem c5_card_fullmatch_witness :
    titleFullmatch "Wands"
      (CardRecord.card ⟨"Wands", "Ace of Wands", "", "", "",
        "https://www.thismighthurttarot.com/wands"⟩) = true :=
  c5_card_fullmatch "Wands" "https://www.thismighthurttarot.com/wands"
    [⟨"Ace of Wands", [], [], [], 0, []⟩] (by decide)
    ⟨"Wands", "Ace of Wands", "", "", "",
      "https://www.thismighthurttarot.com/wands"⟩ (by decide)

/-- C9: a page whose title scan finds no matching title node yields an empty
record list together with the warning line, and no error — the parser is a
total function. -/
theorem c9_no_titles (suit_arcana url : String) (els : List PageEl)
    (h : els.all (fun el => el.txt == "" || !titleFullmatch suit_arcana el.txt) = true) :
    parse_card_page_result suit_arcana url els =
      ([], ["[warn] No cards parsed on " ++ url ++
        " – site structure may have changed."]) := by
  have hfilter : els.filter (keepTitle (titleFullmatch suit_arcana)) = [] := by
    rw [List.filter_eq_nil_iff]
    intro el hel
    have hel' := List.all_eq_true.mp h el hel
    intro hk
    simp only [keepTitle, Bool.and_eq_true, Bool.not_eq_true'] at hk
    obtain ⟨⟨hne, hpat⟩, -⟩ := hk
    rw [hne, hpat] at hel'
    exact absurd hel' (by simp)
  simp [parse_card_page_result, parse_card_page, hfilter]

/-- Witness for C9 on a concrete page with one non-title element. -/
theorem c9_no_titles_witness :
    parse_card_page_result "Wands" "https://www.thismighthurttarot.com/wands"
        [⟨"hello", [], [], [], 0, []⟩] =
      ([], ["[warn] No cards parsed on https://www.thismighthurttarot.com/wands – site structure may have changed."]) :=
  c9_no_titles "Wands" "https://www.thismighthurttarot.com/wands"
    [⟨"hello", [], [], [], 0, []⟩] (by decide)

/-! ### The Pipeline Driver's sort (lines 305-316) -/

def order_key_map : List (String × Nat) :=
  [("Major Arcana", 0), ("Wands", 1), ("Cups", 2), ("Swords", 3), ("Pentacles", 4)]

/-- `order_key[s]`.  The Python dict lookup raises for a label outside the
table; the driver only ever sorts records carrying the five fixed labels, so
the default value is inert. -/
def order_key (s : String) : Nat := (order_key_map.lookup s).getD 99

def num_map : List (String × Nat) :=
  [("Ace", 1), ("Two", 2), ("Three", 3), ("Four", 4), ("Five", 5), ("Six", 6),
   ("Seven", 7), ("Eight", 8), ("Nine", 9), ("Ten", 10), ("Page", 11),
   ("Knight", 12), ("Queen", 13), ("King", 14)]

/-- `re.match(r"^(Ace|...|King)", n)` — the first rank word that is a
(case-sensitive) prefix of the card name. -/
def leadingRank (n : String) : Option String :=
  RANKS_LIST.find? (fun r => r.data.isPrefixOf n.data)

/-- Faithful translation of the driver's `sort_key` (lines 307-314). -/
def sort_key (r : CardRecord) : Nat × Nat :=
  if r.suit_arcana == "Major Arcana" then (order_key r.suit_arcana, 0)
  else
    match leadingRank r.card with
    | some rk => (order_key r.suit_arcana, (num_map.lookup rk).getD 99)
    | none => (order_key r.suit_arcana, 99)

/-- Python's `≤` on the 2-tuples used by the stable ascending `list.sort`. -/
def keyLe (a b : Nat × Nat) : Bool :=
  decide (a.1 < b.1) || (a.1 == b.1 && decide (a.2 ≤ b.2))

/-- `rows.sort(key=sort_key)`: stable ascending sort. -/
def rows_sort (rows : List CardRecord) : List CardRecord :=
  sortBy' (fun x y => keyLe (sort_key x) (sort_key y)) rows

theorem keyLe_total (a b : Nat × Nat) : keyLe a b = true ∨ keyLe b a = true := by
  simp only [keyLe, Bool.or_eq_true, Bool.and_eq_true, decide_eq_true_eq, beq_iff_eq]
  omega

theorem keyLe_trans (a b c : Nat × Nat) (h1 : keyLe a b = true)
    (h2 : keyLe b c = true) : keyLe a c = true := by
  simp only [keyLe, Bool.or_eq_true, Bool.and_eq_true, decide_eq_true_eq,
    beq_iff_eq] at h1 h2 ⊢
  omega

theorem sort_key_fst (rec : CardRecord) :
    (sort_key rec).1 = order_key rec.suit_arcana := by
  unfold sort_key
  split_ifs with h
  · rfl
  · split <;> rfl

theorem sort_key_major (rec : CardRecord)
    (h : (rec.suit_arcana == "Major Arcana") = true) : sort_key rec = (0, 0) := by
  have h' : rec.suit_arcana = "Major Arcana" := by simpa using h
  simp [sort_key, h', order_key, order_key_map]

theorem keyLe_zero_left (k : Nat × Nat) : keyLe (0, 0) k = true := by
  simp only [keyLe, Bool.or_eq_true, Bool.and_eq_true, decide_eq_true_eq, beq_iff_eq]
  omega

theorem insertBy_decomp {α : Type} (r : α → α → Bool) (x : α) (l : List α) :
    ∃ l1 l2, insertBy r x l = l1 ++ x :: l2 ∧ l = l1 ++ l2 ∧
      ∀ y ∈ l1, r x y = false := by
  induction l with
  | nil => exact ⟨[], [], rfl, rfl, by simp⟩
  | cons y ys ih =>
    cases hr : r x y with
    | true => exact ⟨[], y :: ys, by simp [insertBy, hr], rfl, by simp⟩
    | false =>
      obtain ⟨l1, l2, h1, h2, h3⟩ := ih
      refine ⟨y :: l1, l2, ?_, by simp [h2], ?_⟩
      · simp [insertBy, hr, h1]
      · intro z hz
        rcases List.mem_cons.mp hz with rfl | hz'
        · exact hr
        · exact h3 z hz'

theorem filter_insertBy_min {α : Type} (r : α → α → Bool) (p : α → Bool)
    (hmin : ∀ x, p x = true → ∀ y, r x y = true) (x : α) (l : List α) :
    (insertBy r x l).filter p = (x :: l).filter p := by
  obtain ⟨l1, l2, h1, h2, h3⟩ := insertBy_decomp r x l
  cases hp : p x with
  | true =>
    have hl1 : l1 = [] := by
      cases hl : l1 with
      | nil => rfl
      | cons z zs =>
        exfalso
        have hz := h3 z (by rw [hl]; exact List.mem_cons_self z zs)
        rw [hmin x hp z] at hz
        exact absurd hz (by simp)
    rw [h1, hl1, List.nil_append, h2, hl1, List.nil_append]
  | false =>
    rw [h1, h2]
    rw [List.filter_append, List.filter_cons, List.filter_cons, hp]
    simp [List.filter_append]

theorem filter_rows_sort_major (rows : List CardRecord) :
    (rows_sort rows).filter (fun r => r.suit_arcana == "Major Arcana")
      = rows.filter (fun r => r.suit_arcana == "Major Arcana") := by
  have hmin : ∀ x : CardRecord, (x.suit_arcana == "Major Arcana") = true →
      ∀ y, keyLe (sort_key x) (sort_key y) = true := by
    intro x hx y
    rw [sort_key_major x hx]
    exact keyLe_zero_left _
  suffices h : ∀ l : List CardRecord,
      (sortBy' (fun x y => keyLe (sort_key x) (sort_key y)) l).filter
          (fun r => r.suit_arcana == "Major Arcana")
        = l.filter (fun r => r.suit_arcana == "Major Arcana") from h rows
  intro l
  induction l with
  | nil => rfl
  | cons a as ih =>
    show (insertBy _ a (sortBy' _ as)).filter _ = _
    rw [filter_insertBy_min _ _ hmin a (sortBy' _ as), List.filter_cons,
      List.filter_cons, ih]

/-- No record with suit "Wands" is followed by a "Major Arcana" record. -/
def majorsFirst : List CardRecord → Bool
  | [] => true
  | r :: rs =>
    (!(r.suit_arcana == "Wands") ||
      rs.all (fun x => !(x.suit_arcana == "Major Arcana"))) &&
    majorsFirst rs

/-- No "King of Wands" record is followed by an "Ace of Wands" record of the
Wands section. -/
def noAceAfterKing : List CardRecord → Bool
  | [] => true
  | r :: rs =>
    (!(r.suit_arcana == "Wands" && r.card == "King of Wands") ||
      rs.all (fun x => !(x.suit_arcana == "Wands" && x.card == "Ace of Wands"))) &&
    noAceAfterKing rs

theorem sort_key_wands_fst (rec : CardRecord) (h : rec.suit_arcana = "Wands") :
    (sort_key rec).1 = 1 := by
  rw [sort_key_fst, h]
  rfl

theorem majorsFirst_of_sorted (l : List CardRecord)
    (h : l.Chain' (fun a b => keyLe (sort_key a) (sort_key b) = true)) :
    majorsFirst l = true := by
  induction l with
  | nil => rfl
  | cons rec rs ih =>
    have hrest := ih h.tail
    simp only [majorsFirst, Bool.and_eq_true, Bool.or_eq_true]
    refine ⟨?_, hrest⟩
    cases hw : rec.suit_arcana == "Wands" with
    | false => exact Or.inl (by simp [hw])
    | true =>
      refine Or.inr ?_
      rw [List.all_eq_true]
      intro x hx
      have htrans : ∀ a b c : CardRecord,
          keyLe (sort_key a) (sort_key b) = true →
          keyLe (sort_key b) (sort_key c) = true →
          keyLe (sort_key a) (sort_key c) = true :=
        fun a b c h1 h2 => keyLe_trans _ _ _ h1 h2
      have hkey := chain'_head_rel _ htrans rec rs h x hx
      cases hxm : x.suit_arcana == "Major Arcana" with
      | false => simp [hxm]
      | true =>
        exfalso
        have h1 : sort_key x = (0, 0) := sort_key_major x hxm
        have h2 : (sort_key rec).1 = 1 := sort_key_wands_fst rec (by simpa using hw)
        rw [h1] at hkey
        simp only [keyLe, Bool.or_eq_true, Bool.and_eq_true, decide_eq_true_eq,
          beq_iff_eq] at hkey
        omega

theorem noAceAfterKing_of_sorted (l : List CardRecord)
    (h : l.Chain' (fun a b => keyLe (sort_key a) (sort_key b) = true)) :
    noAceAfterKing l = true := by
  induction l with
  | nil => rfl
  | cons rec rs ih =>
    have hrest := ih h.tail
    simp only [noAceAfterKing, Bool.and_eq_true, Bool.or_eq_true]
    refine ⟨?_, hrest⟩
    cases hk : rec.suit_arcana == "Wands" && rec.card == "King of Wands" with
    | false => exact Or.inl (by simp [hk])
    | true =>
      refine Or.inr ?_
      rw [List.all_eq_true]
      intro x hx
      have htrans : ∀ a b c : CardRecord,
          keyLe (sort_key a) (sort_key b) = true →
          keyLe (sort_key b) (sort_key c) = true →
          keyLe (sort_key a) (sort_key c) = true :=
        fun a b c h1 h2 => keyLe_trans _ _ _ h1 h2
      have hkey := chain'_head_rel _ htrans rec rs h x hx
      cases hxa : x.suit_arcana == "Wands" && x.card == "Ace of Wands" with
      | false => simp [hxa]
      | true =>
        exfalso
        simp only [Bool.and_eq_true, beq_iff_eq] at hk hxa
        have h1 : sort_key rec = (1, 14) := by
          simp only [sort_key]
          rw [hk.1, hk.2]
          decide
        have h2 : sort_key x = (1, 1) := by
          simp only [sort_key]
          rw [hxa.1, hxa.2]
          decide
        rw [h1, h2] at hkey
        exact absurd hkey (by decide)

/-- C8: the driver's sort orders records by (section display order, rank
order Ace=1..King=14, Major Arcana keyed 0): the output is sorted by that
key; Major Arcana records keep their discovery order (the sort is stable on
the constant key (0,0)); no Wands record ever precedes a Major Arcana record;
and within Wands no "King of Wands" precedes an "Ace of Wands"; the three
sample keys are (0,0), (1,1) and (1,14). -/
theorem c8_sorting (rows : List CardRecord) :
    (rows_sort rows).Chain' (fun a b => keyLe (sort_key a) (sort_key b) = true) ∧
    (rows_sort rows).filter (fun r => r.suit_arcana == "Major Arcana")
      = rows.filter (fun r => r.suit_arcana == "Major Arcana") ∧
    majorsFirst (rows_sort rows) = true ∧
    noAceAfterKing (rows_sort rows) = true ∧
    sort_key ⟨"Major Arcana", "The Fool", "", "", "", ""⟩ = (0, 0) ∧
    sort_key ⟨"Wands", "Ace of Wands", "", "", "", ""⟩ = (1, 1) ∧
    sort_key ⟨"Wands", "King of Wands", "", "", "", ""⟩ = (1, 14) := by
  have hchain : (rows_sort rows).Chain'
      (fun a b => keyLe (sort_key a) (sort_key b) = true) :=
    chain'_sortBy' _ (fun a b => keyLe_total (sort_key a) (sort_key b)) rows
  exact ⟨hchain, filter_rows_sort_major rows, majorsFirst_of_sorted _ hchain,
    noAceAfterKing_of_sorted _ hchain, by decide, by decide, by decide⟩

/-! ### The description join (C10): `text_clean` leaves no blank lines -/

def hasDoubleNL : List Char → Bool
  | a :: b :: t => (a == '\n' && b == '\n') || hasDoubleNL (b :: t)
  | _ => false

theorem hasDoubleNL_of_q2 (l : List Char) (h : q2 l = true) :
    hasDoubleNL l = false := by
  induction l with
  | nil => rfl
  | cons a t ih =>
    cases t with
    | nil => rfl
    | cons b t' =>
      have h' : (!(isWsp a && nlHead (b :: t')) && q2 (b :: t')) = true := h
      rw [Bool.and_eq_true] at h'
      obtain ⟨hna, hq⟩ := h'
      have h1 : (a == '\n' && b == '\n') = false := by
        cases ha : a == '\n' with
        | false => simp [ha]
        | true =>
          cases hb : b == '\n' with
          | false => simp [hb]
          | true =>
            exfalso
            have ha' : a = '\n' := by simpa using ha
            have habs : (isWsp a && nlHead (b :: t')) = true := by
              simp [isWsp, ha', nlHead, hb]
            rw [habs] at hna
            exact absurd hna (by simp)
      simp [hasDoubleNL, h1, ih hq]

theorem blankHead_append_ne_nil (u v : List Char) (h : u ≠ []) :
    blankHead (u ++ v) = blankHead u := by
  cases u with
  | nil => exact absurd rfl h
  | cons c cs => rfl

theorem isBlank_false_of_nonws (c : Char) (h : isWsp c = false) :
    isBlank c = false := by
  cases hb : isBlank c with
  | false => rfl
  | true => rw [isWsp_of_isBlank c hb] at h; exact absurd h (by simp)

theorem sub1_concat (l : List Char) (x : Char) (hx : isBlank x = false) :
    sub1 (l ++ [x]) = sub1 l ++ [x] := by
  induction l with
  | nil => simp [sub1, hx]
  | cons c cs ih =>
    have hbh : blankHead (cs ++ [x]) = blankHead cs := by
      cases cs with
      | nil => simp [blankHead, hx]
      | cons d ds => rfl
    cases hc : isBlank c with
    | true =>
      cases hh : blankHead cs with
      | true => simp [sub1, hc, hbh, hh, ih]
      | false => simp [sub1, hc, hbh, hh, ih]
    | false => simp [sub1, hc, ih]

theorem wtn_concat (t : List Char) (x : Char) (hx : isWsp x = false) :
    wsThenNewline (t ++ [x]) = wsThenNewline t := by
  induction t with
  | nil =>
    have hnl : (x == '\n') = false := by
      cases h : x == '\n' with
      | false => rfl
      | true =>
        have : x = '\n' := by simpa using h
        subst this
        simp [isWsp] at hx
    simp [wsThenNewline, hnl, hx]
  | cons c t ih =>
    by_cases hnl : c = '\n'
    · subst hnl; simp [wsThenNewline]
    · have hnl' : (c == '\n') = false := by simp [hnl]
      cases hw : isWsp c with
      | true => simp [wsThenNewline, hnl', hw, ih]
      | false => simp [wsThenNewline, hnl', hw]

theorem sub2_concat (l : List Char) (x : Char) (hx : isWsp x = false) :
    sub2 (l ++ [x]) = sub2 l ++ [x] := by
  induction l with
  | nil => simp [sub2, hx]
  | cons c cs ih =>
    have hw : wsThenNewline (cs ++ [x]) = wsThenNewline cs := wtn_concat cs x hx
    cases hd : isWsp c && wsThenNewline cs with
    | true => simp [sub2, hw, hd, ih]
    | false => simp [sub2, hw, hd, ih]

theorem sub1_append_mid (a0 : List Char) (x : Char) (b : List Char)
    (hx : isBlank x = false) :
    sub1 (a0 ++ (x :: b)) = sub1 (a0 ++ [x]) ++ sub1 b := by
  induction a0 with
  | nil => simp [sub1, hx]
  | cons c a0 ih =>
    have hbh : blankHead (a0 ++ (x :: b)) = blankHead (a0 ++ [x]) := by
      cases a0 with
      | nil => simp [blankHead]
      | cons d ds => rfl
    cases hc : isBlank c with
    | true =>
      cases hh : blankHead (a0 ++ [x]) with
      | true => simp [sub1, hc, hbh, hh, ih]
      | false => simp [sub1, hc, hbh, hh, ih]
    | false => simp [sub1, hc, ih]

theorem wtn_append_mid (t0 : List Char) (x : Char) (b : List Char)
    (hx : isWsp x = false) :
    wsThenNewline (t0 ++ (x :: b)) = wsThenNewline (t0 ++ [x]) := by
  induction t0 with
  | nil =>
    have hnl : (x == '\n') = false := by
      cases h : x == '\n' with
      | false => rfl
      | true =>
        have : x = '\n' := by simpa using h
        subst this
        simp [isWsp] at hx
    simp [wsThenNewline, hnl, hx]
  | cons c t0 ih =>
    by_cases hnl : c = '\n'
    · subst hnl; simp [wsThenNewline]
    · have hnl' : (c == '\n') = false := by simp [hnl]
      cases hw : isWsp c with
      | true => simp [wsThenNewline, hnl', hw, ih]
      | false => simp [wsThenNewline, hnl', hw]

theorem sub2_append_mid (a0 : List Char) (x : Char) (b : List Char)
    (hx : isWsp x = false) :
    sub2 (a0 ++ (x :: b)) = sub2 (a0 ++ [x]) ++ sub2 b := by
  induction a0 with
  | nil => simp [sub2, hx]
  | cons c a0 ih =>
    have hw : wsThenNewline (a0 ++ (x :: b)) = wsThenNewline (a0 ++ [x]) :=
      wtn_append_mid a0 x b hx
    cases hwc : isWsp c with
    | true =>
      cases hwt : wsThenNewline (a0 ++ [x]) with
      | true => simp [sub2, hw, hwc, hwt, ih]
      | false => simp [sub2, hw, hwc, hwt, ih]
    | false => simp [sub2, hw, hwc, ih]

theorem last_decomp (d : List Char) (hne : d ≠ []) (hlast : wspHead d.reverse = false) :
    ∃ d0 x, d = d0 ++ [x] ∧ isWsp x = false := by
  cases hr : d.reverse with
  | nil =>
    exfalso
    have := congrArg List.reverse hr
    simp at this
    exact hne this
  | cons x xs =>
    refine ⟨xs.reverse, x, ?_, ?_⟩
    · have := congrArg List.reverse hr
      simpa using this
    · rw [hr] at hlast
      exact hlast

theorem sub1_head (l : List Char) (h : wspHead l = false) :
    wspHead (sub1 l) = false := by
  cases l with
  | nil => rfl
  | cons c cs =>
    have hb : isBlank c = false := isBlank_false_of_nonws c h
    simpa [sub1, hb, wspHead] using h

theorem sub2_head (l : List Char) (h : wspHead l = false) :
    wspHead (sub2 l) = false := by
  cases l with
  | nil => rfl
  | cons c cs =>
    have hc : isWsp c = false := h
    simp [sub2, hc, wspHead]

theorem wtn_false_of_head (l : List Char) (h : wspHead l = false) :
    wsThenNewline l = false := by
  cases l with
  | nil => rfl
  | cons c cs =>
    have hc : isWsp c = false := h
    have hnl : (c == '\n') = false := by
      cases hn : c == '\n' with
      | false => rfl
      | true =>
        have : c = '\n' := by simpa using hn
        subst this
        simp [isWsp] at hc
    simp [wsThenNewline, hnl, hc]

theorem sub1_edge (d : List Char) (hne : d ≠ []) (hh : wspHead d = false)
    (hl : wspHead d.reverse = false) :
    sub1 d ≠ [] ∧ wspHead (sub1 d) = false ∧ wspHead (sub1 d).reverse = false := by
  obtain ⟨d0, x, rfl, hx⟩ := last_decomp d hne hl
  have hxb : isBlank x = false := isBlank_false_of_nonws x hx
  have h1 : sub1 (d0 ++ [x]) = sub1 d0 ++ [x] := sub1_concat d0 x hxb
  refine ⟨by rw [h1]; simp, sub1_head _ hh, ?_⟩
  rw [h1]
  simp [List.reverse_append, wspHead, hx]

theorem sub2_edge (d : List Char) (hne : d ≠ []) (hh : wspHead d = false)
    (hl : wspHead d.reverse = false) :
    sub2 d ≠ [] ∧ wspHead (sub2 d) = false ∧ wspHead (sub2 d).reverse = false := by
  obtain ⟨d0, x, rfl, hx⟩ := last_decomp d hne hl
  have h1 : sub2 (d0 ++ [x]) = sub2 d0 ++ [x] := sub2_concat d0 x hx
  refine ⟨by rw [h1]; simp, sub2_head _ hh, ?_⟩
  rw [h1]
  simp [List.reverse_append, wspHead, hx]

theorem pyJoin_ne_nil (sep : List Char) (e : List Char) (rest : List (List Char))
    (hne : e ≠ []) : pyJoin sep (e :: rest) ≠ [] := by
  cases rest with
  | nil => exact hne
  | cons f fs =>
    show (e ++ sep) ++ pyJoin sep (f :: fs) ≠ []
    simp [hne]

theorem pyJoin_head (sep : List Char) (e : List Char) (rest : List (List Char))
    (hne : e ≠ []) : wspHead (pyJoin sep (e :: rest)) = wspHead e := by
  cases rest with
  | nil => rfl
  | cons f fs =>
    show wspHead ((e ++ sep) ++ pyJoin sep (f :: fs)) = wspHead e
    rw [wspHead_append_ne_nil (e ++ sep) _ (by simp [hne]),
      wspHead_append_ne_nil e sep hne]

theorem pyJoin_rev_head (sep : List Char) (ds : List (List Char))
    (hall : ∀ d ∈ ds, d ≠ [] ∧ wspHead d.reverse = false) :
    wspHead (pyJoin sep ds).reverse = false := by
  induction ds with
  | nil => rfl
  | cons d ds ih =>
    cases ds with
    | nil => exact (hall d (List.mem_cons_self d [])).2
    | cons e ds' =>
      have hrec := ih (fun z hz => hall z (List.mem_cons_of_mem d hz))
      have hpne : pyJoin sep (e :: ds') ≠ [] :=
        pyJoin_ne_nil sep e ds' (hall e (by simp)).1
      show wspHead (((d ++ sep) ++ pyJoin sep (e :: ds')).reverse) = false
      rw [List.reverse_append]
      rw [wspHead_append_ne_nil _ _ (by simpa using hpne)]
      exact hrec

theorem join_core (ds : List (List Char))
    (hed : ∀ d ∈ ds, d ≠ [] ∧ wspHead d = false ∧ wspHead d.reverse = false) :
    sub2 (sub1 (pyJoin ['\n', '\n'] ds))
      = pyJoin ['\n'] (ds.map (fun d => sub2 (sub1 d))) := by
  induction ds with
  | nil => rfl
  | cons d ds ih =>
    cases ds with
    | nil => rfl
    | cons e ds' =>
      obtain ⟨hdne, hdh, hdl⟩ := hed d (List.mem_cons_self d (e :: ds'))
      have hehed := hed e (by simp)
      have ihe := ih (fun z hz => hed z (List.mem_cons_of_mem d hz))
      obtain ⟨d0, x, rfl, hxnw⟩ := last_decomp d hdne hdl
      have hxb : isBlank x = false := isBlank_false_of_nonws x hxnw
      have hRhead : wspHead (pyJoin ['\n', '\n'] (e :: ds')) = false := by
        rw [pyJoin_head _ e ds' hehed.1]
        exact hehed.2.1
      show sub2 (sub1 (((d0 ++ [x]) ++ ['\n', '\n']) ++ pyJoin ['\n', '\n'] (e :: ds'))) = _
      have hshape : ((d0 ++ [x]) ++ ['\n', '\n']) ++ pyJoin ['\n', '\n'] (e :: ds')
          = d0 ++ (x :: ('\n' :: '\n' :: pyJoin ['\n', '\n'] (e :: ds'))) := by
        simp
      rw [hshape, sub1_append_mid d0 x _ hxb]
      have hs1 : sub1 ('\n' :: '\n' :: pyJoin ['\n', '\n'] (e :: ds'))
          = '\n' :: '\n' :: sub1 (pyJoin ['\n', '\n'] (e :: ds')) := by
        simp [sub1, isBlank]
      rw [hs1]
      have hs1c : sub1 (d0 ++ [x]) = sub1 d0 ++ [x] := sub1_concat d0 x hxb
      rw [hs1c]
      have hshape2 : (sub1 d0 ++ [x]) ++ ('\n' :: '\n' :: sub1 (pyJoin ['\n', '\n'] (e :: ds')))
          = sub1 d0 ++ (x :: ('\n' :: '\n' :: sub1 (pyJoin ['\n', '\n'] (e :: ds')))) := by
        simp
      rw [hshape2, sub2_append_mid (sub1 d0) x _ hxnw]
      have hwtn : wsThenNewline (sub1 (pyJoin ['\n', '\n'] (e :: ds'))) = false :=
        wtn_false_of_head _ (sub1_head _ hRhead)
      have hs2 : sub2 ('\n' :: '\n' :: sub1 (pyJoin ['\n', '\n'] (e :: ds')))
          = '\n' :: sub2 (sub1 (pyJoin ['\n', '\n'] (e :: ds'))) := by
        simp [sub2, wsThenNewline, hwtn, isWsp]
      rw [hs2, ihe]
      show sub2 (sub1 d0 ++ [x]) ++ ('\n' :: pyJoin ['\n'] ((e :: ds').map (fun z => sub2 (sub1 z))))
        = (sub2 (sub1 (d0 ++ [x])) ++ ['\n']) ++ pyJoin ['\n'] ((e :: ds').map (fun z => sub2 (sub1 z)))
      rw [hs1c]
      simp

theorem takeWhile_nil_head (u : List Char) (h : u.takeWhile isWsp = []) :
    wspHead u = false := by
  cases u with
  | nil => rfl
  | cons c cs =>
    rw [List.takeWhile_cons] at h
    cases hc : isWsp c with
    | false => exact hc
    | true => rw [hc] at h; simp at h

theorem dropWhile_length_le (p : Char → Bool) (u : List Char) :
    (u.dropWhile p).length ≤ u.length := by
  have := congrArg List.length (List.takeWhile_append_dropWhile p u)
  rw [List.length_append] at this
  omega

theorem trim_eq_self_heads (l : List Char) (h : trimWs l = l) :
    wspHead l = false ∧ wspHead l.reverse = false := by
  have hsplit := List.takeWhile_append_dropWhile isWsp l
  have hlen1 : (l.dropWhile isWsp).length ≤ l.length := dropWhile_length_le isWsp l
  have hlen2 : (trimWs l).length ≤ (l.dropWhile isWsp).length := by
    unfold trimWs
    rw [List.length_reverse]
    have := dropWhile_length_le isWsp (l.dropWhile isWsp).reverse
    rw [List.length_reverse] at this
    exact this
  have hlenl : (trimWs l).length = l.length := by rw [h]
  have htake : l.takeWhile isWsp = [] := by
    have hsl := congrArg List.length hsplit
    rw [List.length_append] at hsl
    have h0 : (l.takeWhile isWsp).length = 0 := by omega
    exact List.length_eq_zero.mp h0
  have hm : l.dropWhile isWsp = l := by
    rw [htake] at hsplit
    simpa using hsplit
  constructor
  · exact takeWhile_nil_head l htake
  · have h2 : (l.reverse.dropWhile isWsp).reverse = l := by
      unfold trimWs at h
      rw [hm] at h
      exact h
    have h3 : l.reverse.dropWhile isWsp = l.reverse := by
      have := congrArg List.reverse h2
      simpa using this
    have hsplit2 := List.takeWhile_append_dropWhile isWsp l.reverse
    rw [h3] at hsplit2
    have htake2 : l.reverse.takeWhile isWsp = [] := by
      have hsl := congrArg List.length hsplit2
      rw [List.length_append] at hsl
      have h0 : (l.reverse.takeWhile isWsp).length = 0 := by omega
      exact List.length_eq_zero.mp h0
    exact takeWhile_nil_head l.reverse htake2

theorem trim_noop (l : List Char) (hh : wspHead l = false)
    (hl : wspHead l.reverse = false) : trimWs l = l := by
  unfold trimWs
  rw [dropWhile_eq_self_of_wspHead l hh, dropWhile_eq_self_of_wspHead l.reverse hl,
    List.reverse_reverse]

/-- C10: the output of `text_clean` never contains two consecutive newline
characters, so even though the Page Parser joins paragraphs with a blank line
("\n\n"), an emitted description never contains a blank line; for stripped,
non-empty paragraph texts the description is exactly the cleaned paragraphs
joined by a single newline. -/
theorem c10_description (s : String) (parts : List String)
    (hp : ∀ p ∈ parts, p ≠ "" ∧ pyStrip p = p) :
    hasDoubleNL (text_clean s).data = false ∧
    hasDoubleNL (description_of parts).data = false ∧
    description_of parts
      = String.mk (pyJoin ['\n'] (parts.map (fun p => sub2 (sub1 p.data)))) := by
  refine ⟨hasDoubleNL_of_q2 _ (q2_trim _ (q2_sub2 _)),
    hasDoubleNL_of_q2 _ (q2_trim _ (q2_sub2 _)), ?_⟩
  have hed : ∀ d ∈ parts.map String.data,
      d ≠ [] ∧ wspHead d = false ∧ wspHead d.reverse = false := by
    intro d hd
    obtain ⟨p, hpmem, rfl⟩ := List.mem_map.mp hd
    obtain ⟨hne, hstr⟩ := hp p hpmem
    have hdata : trimWs p.data = p.data := congrArg String.data hstr
    have hheads := trim_eq_self_heads p.data hdata
    refine ⟨?_, hheads.1, hheads.2⟩
    intro h0
    exact hne (congrArg String.mk h0)
  have hcore := join_core (parts.map String.data) hed
  have hfe : ∀ d' ∈ (parts.map String.data).map (fun d => sub2 (sub1 d)),
      d' ≠ [] ∧ wspHead d' = false ∧ wspHead d'.reverse = false := by
    intro d' hd'
    obtain ⟨d, hd, rfl⟩ := List.mem_map.mp hd'
    obtain ⟨a, b, c⟩ := hed d hd
    obtain ⟨a1, b1, c1⟩ := sub1_edge d a b c
    exact sub2_edge (sub1 d) a1 b1 c1
  have hJh : wspHead (pyJoin ['\n']
      ((parts.map String.data).map (fun d => sub2 (sub1 d)))) = false := by
    cases hc : (parts.map String.data).map (fun d => sub2 (sub1 d)) with
    | nil => rfl
    | cons a rest =>
      have ham : a ∈ (parts.map String.data).map (fun d => sub2 (sub1 d)) := by
        rw [hc]; exact List.mem_cons_self a rest
      rw [pyJoin_head _ a rest (hfe a ham).1]
      exact (hfe a ham).2.1
  have hJl : wspHead (pyJoin ['\n']
      ((parts.map String.data).map (fun d => sub2 (sub1 d)))).reverse = false :=
    pyJoin_rev_head _ _ (fun d hd => ⟨(hfe d hd).1, (hfe d hd).2.2⟩)
  show String.mk (trimWs (sub2 (sub1 (pyJoin ['\n', '\n'] (parts.map String.data))))) = _
  rw [hcore, trim_noop _ hJh hJl, List.map_map]
  rfl

/-- Witness for C10 on two concrete stripped paragraphs. -/
theorem c10_description_witness :
    hasDoubleNL (text_clean "a \n\n b").data = false ∧
    hasDoubleNL (description_of ["First paragraph.", "Second paragraph."]).data = false ∧
    description_of ["First paragraph.", "Second paragraph."]
      = String.mk (pyJoin ['\n'] (["First paragraph.", "Second paragraph."].map
          (fun p => sub2 (sub1 p.data)))) :=
  c10_description "a \n\n b" ["First paragraph.", "Second paragraph."] (by decide)
